import Mathlib

/-!
Verification of the translation pipeline of XUnity.LLMTranslate.

Python strings are modelled as `List Char` (code points, matching Python's
`len`/indexing semantics).  Regular-expression substitutions appearing in the
source are embedded as explicit scanning functions with the exact matching
semantics of the concrete patterns used there (leftmost match, lazy/greedy as
written, continue after the match).  `str.strip`, `re`'s `\s` and
`str.isspace` are modelled over the ASCII whitespace characters; no claim
exercises non-ASCII whitespace.
-/

namespace XUnity

abbrev Str := List Char

/-- Vertical tab. -/
def vtab : Char := Char.ofNat 11

/-- Form feed. -/
def ffeed : Char := Char.ofNat 12

/-- ASCII whitespace, the characters matched by `\s` / stripped by `strip()`
that the claims exercise. -/
def isPySpace (c : Char) : Bool :=
  c = ' ' || c = '\t' || c = '\n' || c = '\r' || c = vtab || c = ffeed

/-- ASCII lower-casing, as performed by `re.IGNORECASE` on the ASCII tag
patterns of the source. -/
def toLowerCh (c : Char) : Char :=
  if 65 ≤ c.toNat ∧ c.toNat ≤ 90 then Char.ofNat (c.toNat + 32) else c

/-- Case-insensitive character comparison. -/
def ciEq (a b : Char) : Bool := toLowerCh a == toLowerCh b

/-- Does the case-insensitive pattern `p` match at the start of `s`? -/
def ciStartsWith : Str → Str → Bool
  | [], _ => true
  | _ :: _, [] => false
  | p :: ps, c :: cs => ciEq p c && ciStartsWith ps cs

/-- Does the case-insensitive pattern `p` occur anywhere in `s`? -/
def ciContains (p : Str) : Str → Bool
  | [] => ciStartsWith p []
  | c :: cs => ciStartsWith p (c :: cs) || ciContains p cs

/-- Python `str.strip()` (over the modelled whitespace set). -/
def pyStrip (s : Str) : Str :=
  ((s.dropWhile isPySpace).reverse.dropWhile isPySpace).reverse

/-- The reasoning-markup tags of `_sanitize_chat_response`, written without
their leading `<` where a function needs a structurally non-empty tag. -/
def thinkingOpenR : Str := ['t', 'h', 'i', 'n', 'k', 'i', 'n', 'g', '>']

def thinkOpenR : Str := ['t', 'h', 'i', 'n', 'k', '>']

def thinkingOpen : Str := '<' :: thinkingOpenR

def thinkOpen : Str := '<' :: thinkOpenR

def thinkingClose : Str := ['<', '/', 't', 'h', 'i', 'n', 'k', 'i', 'n', 'g', '>']

def thinkClose : Str := ['<', '/', 't', 'h', 'i', 'n', 'k', '>']

/-- Drop everything up to and including the first (case-insensitive)
occurrence of `pat`; `none` when `pat` does not occur.  This is the lazy
`.*?pat` step of the tag-removal regexes. -/
def dropAfterFirst (pat : Str) : Str → Option Str
  | [] => none
  | c :: cs =>
    if ciStartsWith pat (c :: cs) then some ((c :: cs).drop pat.length)
    else dropAfterFirst pat cs

theorem dropWhile_length_le (p : Char → Bool) :
    ∀ l : Str, (l.dropWhile p).length ≤ l.length := by
  intro l
  induction l with
  | nil => simp
  | cons a as ih =>
    by_cases h : p a
    · rw [List.dropWhile_cons_of_pos h]; simp; omega
    · rw [List.dropWhile_cons_of_neg h]

theorem dropAfterFirst_length_le (pat : Str) :
    ∀ s r, dropAfterFirst pat s = some r → r.length ≤ s.length := by
  intro s
  induction s with
  | nil => intro r h; simp [dropAfterFirst] at h
  | cons c cs ih =>
    intro r h
    simp only [dropAfterFirst] at h
    split at h
    · cases h
      rw [List.length_drop]; omega
    · exact Nat.le_trans (ih r h) (by simp)

/-- Fuelled worker for `subLazy`; the fuel dominates the input length, so
the fuel-exhaustion branch is never taken. -/
def subLazyF (o : Char) (openR closeT : Str) : Nat → Str → Str
  | 0, s => s
  | fuel + 1, s =>
    match s with
    | [] => []
    | c :: cs =>
      if ciStartsWith (o :: openR) (c :: cs) then
        match dropAfterFirst closeT (cs.drop openR.length) with
        | some rest => subLazyF o openR closeT fuel rest
        | none => c :: subLazyF o openR closeT fuel cs
      else c :: subLazyF o openR closeT fuel cs

/-- `re.sub(r'<TAG>.*?</TAG>', '', s)` for a concrete open tag `o :: openR`
and close tag `closeT`: at each position, if the open tag matches and a close
tag occurs later, remove through the first close tag and continue scanning
after it; otherwise keep one character and move on. -/
def subLazy (o : Char) (openR closeT : Str) (s : Str) : Str :=
  subLazyF o openR closeT s.length s

theorem subLazyF_fuel_irrel (o : Char) (openR closeT : Str) :
    ∀ f1 f2 s, s.length ≤ f1 → s.length ≤ f2 →
      subLazyF o openR closeT f1 s = subLazyF o openR closeT f2 s := by
  intro f1
  induction f1 with
  | zero =>
    intro f2 s h1 _
    have : s = [] := List.length_eq_zero.mp (Nat.le_zero.mp h1)
    subst this
    cases f2 <;> simp [subLazyF]
  | succ a ih =>
    intro f2 s h1 h2
    match s with
    | [] => cases f2 <;> simp [subLazyF]
    | c :: cs =>
      match f2, h2 with
      | b + 1, h2 =>
        simp only [subLazyF]
        have hcs : cs.length ≤ a := by simp at h1; omega
        have hcsb : cs.length ≤ b := by simp at h2; omega
        split
        · cases hd : dropAfterFirst closeT (cs.drop openR.length) with
          | some rest =>
            have hr := dropAfterFirst_length_le closeT (cs.drop openR.length) rest hd
            have hdl : (cs.drop openR.length).length ≤ cs.length := by
              rw [List.length_drop]; omega
            exact ih b rest (by omega) (by omega)
          | none => rw [ih b cs hcs hcsb]
        · rw [ih b cs hcs hcsb]

/-- The recurrence `subLazy` satisfies (the fuelled definition evaluated at
any sufficient fuel). -/
theorem subLazy_cons (o : Char) (openR closeT : Str) (c : Char) (cs : Str) :
    subLazy o openR closeT (c :: cs) =
      if ciStartsWith (o :: openR) (c :: cs) then
        match dropAfterFirst closeT (cs.drop openR.length) with
        | some rest => subLazy o openR closeT rest
        | none => c :: subLazy o openR closeT cs
      else c :: subLazy o openR closeT cs := by
  show subLazyF o openR closeT (cs.length + 1) (c :: cs) = _
  simp only [subLazyF]
  split
  · cases hd : dropAfterFirst closeT (cs.drop openR.length) with
    | some rest =>
      have hr := dropAfterFirst_length_le closeT (cs.drop openR.length) rest hd
      have hdl : (cs.drop openR.length).length ≤ cs.length := by
        rw [List.length_drop]; omega
      exact subLazyF_fuel_irrel o openR closeT cs.length rest.length rest
        (by omega) (by omega)
    | none => rfl
  · rfl

/-- The optional-close step of `<think(?:ing)?>[^<]*(?:</think(?:ing)?>)?`:
greedily consume a closing tag if one is present at the current position. -/
def closeTagDrop (s : Str) : Str :=
  if ciStartsWith thinkingClose s then s.drop 11
  else if ciStartsWith thinkClose s then s.drop 8
  else s

theorem closeTagDrop_length_le (s : Str) : (closeTagDrop s).length ≤ s.length := by
  unfold closeTagDrop
  split
  · rw [List.length_drop]; omega
  · split
    · rw [List.length_drop]; omega
    · exact Nat.le_refl _

/-- Fuelled worker for `subOpenRun`. -/
def subOpenRunF : Nat → Str → Str
  | 0, s => s
  | fuel + 1, s =>
    match s with
    | [] => []
    | c :: cs =>
      if ciStartsWith thinkingOpen (c :: cs) then
        subOpenRunF fuel (closeTagDrop ((cs.drop 9).dropWhile (fun x => x != '<')))
      else if ciStartsWith thinkOpen (c :: cs) then
        subOpenRunF fuel (closeTagDrop ((cs.drop 6).dropWhile (fun x => x != '<')))
      else c :: subOpenRunF fuel cs

/-- `re.sub(r'<think(?:ing)?>[^<]*(?:</think(?:ing)?>)?', '', s)`: the open
tag (longest alternative first), a maximal run of non-`<` characters, and an
optional closing tag are removed; scanning continues after the match. -/
def subOpenRun (s : Str) : Str := subOpenRunF s.length s

theorem openRunStep_length_le (k : Nat) (cs : Str) :
    (closeTagDrop ((cs.drop k).dropWhile (fun x => x != '<'))).length ≤ cs.length := by
  have h1 := closeTagDrop_length_le ((cs.drop k).dropWhile (fun x => x != '<'))
  have h2 : ((cs.drop k).dropWhile (fun x => x != '<')).length ≤ (cs.drop k).length :=
    dropWhile_length_le _ _
  have h3 : (cs.drop k).length ≤ cs.length := by rw [List.length_drop]; omega
  omega

theorem subOpenRunF_fuel_irrel :
    ∀ f1 f2 s, s.length ≤ f1 → s.length ≤ f2 → subOpenRunF f1 s = subOpenRunF f2 s := by
  intro f1
  induction f1 with
  | zero =>
    intro f2 s h1 _
    have : s = [] := List.length_eq_zero.mp (Nat.le_zero.mp h1)
    subst this
    cases f2 <;> simp [subOpenRunF]
  | succ a ih =>
    intro f2 s h1 h2
    match s with
    | [] => cases f2 <;> simp [subOpenRunF]
    | c :: cs =>
      match f2, h2 with
      | b + 1, h2 =>
        simp only [subOpenRunF]
        have hcs : cs.length ≤ a := by simp at h1; omega
        have hcsb : cs.length ≤ b := by simp at h2; omega
        have l9 := openRunStep_length_le 9 cs
        have l6 := openRunStep_length_le 6 cs
        split
        · exact ih b _ (by omega) (by omega)
        · split
          · exact ih b _ (by omega) (by omega)
          · rw [ih b cs hcs hcsb]

/-- The recurrence `subOpenRun` satisfies. -/
theorem subOpenRun_cons (c : Char) (cs : Str) :
    subOpenRun (c :: cs) =
      if ciStartsWith thinkingOpen (c :: cs) then
        subOpenRun (closeTagDrop ((cs.drop 9).dropWhile (fun x => x != '<')))
      else if ciStartsWith thinkOpen (c :: cs) then
        subOpenRun (closeTagDrop ((cs.drop 6).dropWhile (fun x => x != '<')))
      else c :: subOpenRun cs := by
  show subOpenRunF (cs.length + 1) (c :: cs) = _
  simp only [subOpenRunF]
  have l9 := openRunStep_length_le 9 cs
  have l6 := openRunStep_length_le 6 cs
  split
  · exact subOpenRunF_fuel_irrel cs.length _ _ (by omega) (by omega)
  · split
    · exact subOpenRunF_fuel_irrel cs.length _ _ (by omega) (by omega)
    · rfl

/-- The part of `s` strictly after its last `'\n'` (all of `s` when it has
none). -/
def afterLastNl (s : Str) : Str :=
  (s.reverse.takeWhile (fun c => c != '\n')).reverse

theorem takeWhile_length_lt {p : Char → Bool} :
    ∀ (l : Str) (x : Char), x ∈ l → p x = false → (l.takeWhile p).length < l.length := by
  intro l
  induction l with
  | nil => intro x hx; simp at hx
  | cons a as ih =>
    intro x hx hp
    by_cases ha : p a
    · rw [List.takeWhile_cons_of_pos ha]
      have hxas : x ∈ as := by
        rcases List.mem_cons.mp hx with h | h
        · subst h; rw [hp] at ha; exact absurd ha (by simp)
        · exact h
      have := ih x hxas hp
      simpa using Nat.succ_lt_succ this
    · rw [List.takeWhile_cons_of_neg ha]
      simp

theorem afterLastNl_length_lt {s : Str} (h : '\n' ∈ s) :
    (afterLastNl s).length < s.length := by
  unfold afterLastNl
  rw [List.length_reverse]
  have hm : '\n' ∈ s.reverse := List.mem_reverse.mpr h
  have hp : (fun c => c != '\n') '\n' = false := by simp
  have := takeWhile_length_lt (p := fun c => c != '\n') s.reverse '\n' hm hp
  rwa [List.length_reverse] at this

/-- Fuelled worker for `collapseBlank`. -/
def collapseBlankF : Nat → Str → Str
  | 0, s => s
  | fuel + 1, s =>
    match s with
    | [] => []
    | c :: cs =>
      if c = '\n' ∧ '\n' ∈ cs.takeWhile isPySpace then
        '\n' :: '\n' ::
          collapseBlankF fuel (afterLastNl (cs.takeWhile isPySpace) ++ cs.dropWhile isPySpace)
      else c :: collapseBlankF fuel cs

/-- `re.sub(r'\n\s*\n', '\n\n', s)`: a match is a `'\n'` followed by the
greedy whitespace run after it, up to and including the last `'\n'` of that
run; it is replaced by two newlines and scanning continues after the
match. -/
def collapseBlank (s : Str) : Str := collapseBlankF s.length s

theorem collapseStep_length_lt {cs : Str} (h : '\n' ∈ cs.takeWhile isPySpace) :
    (afterLastNl (cs.takeWhile isPySpace) ++ cs.dropWhile isPySpace).length < cs.length + 1 := by
  have h1 : (afterLastNl (cs.takeWhile isPySpace)).length <
      (cs.takeWhile isPySpace).length := afterLastNl_length_lt h
  have h2 : (cs.takeWhile isPySpace).length + (cs.dropWhile isPySpace).length
      = cs.length := by
    conv_rhs => rw [← List.takeWhile_append_dropWhile (p := isPySpace) (l := cs)]
    rw [List.length_append]
  rw [List.length_append]
  omega

theorem collapseBlankF_fuel_irrel :
    ∀ f1 f2 s, s.length ≤ f1 → s.length ≤ f2 → collapseBlankF f1 s = collapseBlankF f2 s := by
  intro f1
  induction f1 with
  | zero =>
    intro f2 s h1 _
    have : s = [] := List.length_eq_zero.mp (Nat.le_zero.mp h1)
    subst this
    cases f2 <;> simp [collapseBlankF]
  | succ a ih =>
    intro f2 s h1 h2
    match s with
    | [] => cases f2 <;> simp [collapseBlankF]
    | c :: cs =>
      match f2, h2 with
      | b + 1, h2 =>
        simp only [collapseBlankF]
        have hcs : cs.length ≤ a := by simp at h1; omega
        have hcsb : cs.length ≤ b := by simp at h2; omega
        split
        · rename_i hc
          have := collapseStep_length_lt hc.2
          rw [ih b _ (by omega) (by omega)]
        · rw [ih b cs hcs hcsb]

/-- The recurrence `collapseBlank` satisfies. -/
theorem collapseBlank_cons (c : Char) (cs : Str) :
    collapseBlank (c :: cs) =
      if c = '\n' ∧ '\n' ∈ cs.takeWhile isPySpace then
        '\n' :: '\n' ::
          collapseBlank (afterLastNl (cs.takeWhile isPySpace) ++ cs.dropWhile isPySpace)
      else c :: collapseBlank cs := by
  show collapseBlankF (cs.length + 1) (c :: cs) = _
  simp only [collapseBlankF]
  split
  · rename_i hc
    have := collapseStep_length_lt hc.2
    exact congrArg (fun t => '\n' :: '\n' :: t)
      (collapseBlankF_fuel_irrel cs.length
        (afterLastNl (cs.takeWhile isPySpace) ++ cs.dropWhile isPySpace).length
        (afterLastNl (cs.takeWhile isPySpace) ++ cs.dropWhile isPySpace)
        (by omega) (by omega))
  · rfl

/-- The truncation marker appended by `_sanitize_chat_response`. -/
def truncMarker : Str := "...(内容过长已截断)".toList

/-- The cleaning stages of `_sanitize_chat_response` before length
truncation: the three tag-removal substitutions, blank-line collapsing, and
stripping, in source order. -/
def sanitizeStages (content : Str) : Str :=
  pyStrip (collapseBlank (subOpenRun
    (subLazy '<' thinkOpenR thinkClose
      (subLazy '<' thinkingOpenR thinkingClose content))))

/-- `APIClient._sanitize_chat_response` (the `log_changes` flag only affects
logging). -/
def sanitizeChat (content : Str) : Str :=
  if content = [] then []
  else
    let cleaned := sanitizeStages content
    if 10000 < cleaned.length then cleaned.take 10000 ++ truncMarker
    else cleaned

end XUnity

namespace XUnity

/-! ## JSON (`json.loads` / `json.dumps` as used by the client)

The standard-library JSON functions are external to the repository; they are
modelled here for the value shapes the client manipulates.  The number
grammar is restricted to integers (a numeric token followed by `.`/`e`/`E`
fails to parse): every reply exercised by the claims contains only strings,
arrays and objects, and the extraction logic never inspects numbers. -/

/-- JSON values as produced by `json.loads`. -/
inductive JVal where
  | jnull
  | jbool (b : Bool)
  | jnum (n : Int)
  | jstr (s : Str)
  | jarr (elems : List JVal)
  | jobj (fields : List (Str × JVal))

def lbrace : Char := Char.ofNat 123

def rbrace : Char := Char.ofNat 125

def backspaceCh : Char := Char.ofNat 8

/-- Whitespace skipped between JSON tokens. -/
def isJsonWs (c : Char) : Bool := c = ' ' || c = '\t' || c = '\n' || c = '\r'

def skipWs (s : Str) : Str := s.dropWhile isJsonWs

def isDigitCh (c : Char) : Bool := 48 ≤ c.toNat && c.toNat ≤ 57

def hexVal (c : Char) : Option Nat :=
  if 48 ≤ c.toNat ∧ c.toNat ≤ 57 then some (c.toNat - 48)
  else if 97 ≤ c.toNat ∧ c.toNat ≤ 102 then some (c.toNat - 87)
  else if 65 ≤ c.toNat ∧ c.toNat ≤ 70 then some (c.toNat - 55)
  else none

/-- Parse the body of a JSON string (the opening quote already consumed),
returning the decoded characters and the remaining input. -/
def pStringBody : Nat → Str → Option (Str × Str)
  | 0, _ => none
  | fuel + 1, s =>
    match s with
    | [] => none
    | c :: rest =>
      if c = '\"' then some ([], rest)
      else if c = '\\' then
        match rest with
        | [] => none
        | e :: rest2 =>
          let esc : Option (Char × Str) :=
            if e = '\"' then some ('\"', rest2)
            else if e = '\\' then some ('\\', rest2)
            else if e = '/' then some ('/', rest2)
            else if e = 'b' then some (backspaceCh, rest2)
            else if e = 'f' then some (ffeed, rest2)
            else if e = 'n' then some ('\n', rest2)
            else if e = 'r' then some ('\r', rest2)
            else if e = 't' then some ('\t', rest2)
            else if e = 'u' then
              match rest2 with
              | h1 :: h2 :: h3 :: h4 :: rest3 =>
                match hexVal h1, hexVal h2, hexVal h3, hexVal h4 with
                | some a, some b, some c2, some d =>
                  some (Char.ofNat (((a * 16 + b) * 16 + c2) * 16 + d), rest3)
                | _, _, _, _ => none
              | _ => none
            else none
          match esc with
          | some (ch, r2) => (pStringBody fuel r2).map (fun pr => (ch :: pr.1, pr.2))
          | none => none
      else if c.toNat < 32 then none
      else (pStringBody fuel rest).map (fun pr => (c :: pr.1, pr.2))

def digitsToNat (ds : Str) : Nat :=
  ds.foldl (fun a c => a * 10 + (c.toNat - 48)) 0

/-- Parse an integer JSON number; a following `.`, `e` or `E` (a float)
makes the whole parse fail, matching the restriction documented above. -/
def pNumber (s : Str) : Option (Int × Str) :=
  let neg : Bool := match s with | '-' :: _ => true | _ => false
  let s1 : Str := match s with | '-' :: r => r | _ => s
  let ds := s1.takeWhile isDigitCh
  if ds = [] then none
  else
    let rest := s1.drop ds.length
    let n : Int := Int.ofNat (digitsToNat ds)
    let v : Int := if neg then -n else n
    match rest with
    | c :: _ => if c = '.' ∨ c = 'e' ∨ c = 'E' then none else some (v, rest)
    | [] => some (v, rest)

/-- Insert into a Python-`dict`-like association list: an existing key keeps
its position and gets the new value, a new key is appended. -/
def pyDictInsert (acc : List (Str × JVal)) (k : Str) (v : JVal) : List (Str × JVal) :=
  if acc.any (fun p => p.1 == k) then
    acc.map (fun p => if p.1 = k then (p.1, v) else p)
  else acc ++ [(k, v)]

def pyDictOf (ps : List (Str × JVal)) : List (Str × JVal) :=
  ps.foldl (fun acc kv => pyDictInsert acc kv.1 kv.2) []

mutual

def pVal : Nat → Str → Option (JVal × Str)
  | 0, _ => none
  | fuel + 1, s =>
    match s with
    | [] => none
    | c :: cs =>
      if c = '\"' then (pStringBody fuel cs).map (fun pr => (JVal.jstr pr.1, pr.2))
      else if c = '[' then
        match skipWs cs with
        | ']' :: r => some (JVal.jarr [], r)
        | t => (pElems fuel t).map (fun pr => (JVal.jarr pr.1, pr.2))
      else if c = lbrace then
        match skipWs cs with
        | [] => none
        | d :: r =>
          if d = rbrace then some (JVal.jobj [], r)
          else (pFields fuel (d :: r)).map (fun pr => (JVal.jobj (pyDictOf pr.1), pr.2))
      else if c = 't' then
        if cs.take 3 = ['r', 'u', 'e'] then some (JVal.jbool true, cs.drop 3) else none
      else if c = 'f' then
        if cs.take 4 = ['a', 'l', 's', 'e'] then some (JVal.jbool false, cs.drop 4) else none
      else if c = 'n' then
        if cs.take 3 = ['u', 'l', 'l'] then some (JVal.jnull, cs.drop 3) else none
      else (pNumber (c :: cs)).map (fun pr => (JVal.jnum pr.1, pr.2))

def pElems : Nat → Str → Option (List JVal × Str)
  | 0, _ => none
  | fuel + 1, s =>
    match pVal fuel s with
    | none => none
    | some (v, r) =>
      match skipWs r with
      | ',' :: r2 => (pElems fuel (skipWs r2)).map (fun pr => (v :: pr.1, pr.2))
      | ']' :: r2 => some ([v], r2)
      | _ => none

def pFields : Nat → Str → Option (List (Str × JVal) × Str)
  | 0, _ => none
  | fuel + 1, s =>
    match s with
    | [] => none
    | c :: cs =>
      if c = '\"' then
        match pStringBody fuel cs with
        | none => none
        | some (k, r) =>
          match skipWs r with
          | ':' :: r2 =>
            match pVal fuel (skipWs r2) with
            | none => none
            | some (v, r3) =>
              match skipWs r3 with
              | ',' :: r4 => (pFields fuel (skipWs r4)).map (fun pr => ((k, v) :: pr.1, pr.2))
              | d :: r4 => if d = rbrace then some ([(k, v)], r4) else none
              | [] => none
          | _ => none
      else none

end

/-- `json.loads`: a single JSON value surrounded only by whitespace. -/
def pyLoads (s : Str) : Option JVal :=
  match pVal (2 * s.length + 2) (skipWs s) with
  | some (v, r) => if skipWs r = [] then some v else none
  | none => none

def hexDigit (n : Nat) : Char :=
  if n < 10 then Char.ofNat (48 + n) else Char.ofNat (87 + n)

def jsonEscapeChar (c : Char) : Str :=
  if c = '\"' then ['\\', '\"']
  else if c = '\\' then ['\\', '\\']
  else if c = '\n' then ['\\', 'n']
  else if c = '\r' then ['\\', 'r']
  else if c = '\t' then ['\\', 't']
  else if c = backspaceCh then ['\\', 'b']
  else if c = ffeed then ['\\', 'f']
  else if c.toNat < 32 then
    ['\\', 'u', '0', '0', hexDigit (c.toNat / 16), hexDigit (c.toNat % 16)]
  else [c]

def jsonEscape (s : Str) : Str := (s.map jsonEscapeChar).flatten

mutual

/-- `json.dumps(..., ensure_ascii=False)` with the default separators. -/
def jsonDumps : JVal → Str
  | JVal.jnull => ['n', 'u', 'l', 'l']
  | JVal.jbool true => ['t', 'r', 'u', 'e']
  | JVal.jbool false => ['f', 'a', 'l', 's', 'e']
  | JVal.jnum n => (toString n).toList
  | JVal.jstr s => '\"' :: (jsonEscape s ++ ['\"'])
  | JVal.jarr es => '[' :: (jsonDumpsElems es ++ [']'])
  | JVal.jobj fs => lbrace :: (jsonDumpsFields fs ++ [rbrace])

def jsonDumpsElems : List JVal → Str
  | [] => []
  | [v] => jsonDumps v
  | v :: rest => jsonDumps v ++ ',' :: ' ' :: jsonDumpsElems rest

def jsonDumpsFields : List (Str × JVal) → Str
  | [] => []
  | [(k, v)] => '\"' :: (jsonEscape k ++ '\"' :: ':' :: ' ' :: jsonDumps v)
  | (k, v) :: rest =>
    '\"' :: (jsonEscape k ++ '\"' :: ':' :: ' ' :: jsonDumps v)
      ++ ',' :: ' ' :: jsonDumpsFields rest

end

/-- Python `dict.get` on a parsed (deduplicated) JSON object. -/
def objGet (fields : List (Str × JVal)) (key : Str) : Option JVal :=
  (fields.find? (fun p => p.1 == key)).map (fun p => p.2)

end XUnity

namespace XUnity

/-! ## Response extraction (`_strip_code_fences`, `_clean_translation_entry`,
`_extract_batch_translations`) -/

def btick : Char := Char.ofNat 96

def fenceMark : Str := [btick, btick, btick]

/-- `APIClient._strip_code_fences`. -/
def stripCodeFences (content : Str) : Str :=
  if content = [] then []
  else
    let trimmed := pyStrip content
    if fenceMark.isPrefixOf trimmed then
      let afterNl :=
        match trimmed.findIdx? (fun c => c == '\n') with
        | some i => trimmed.drop (i + 1)
        | none => trimmed
      let body :=
        if fenceMark.isSuffixOf afterNl then afterNl.take (afterNl.length - 3)
        else afterNl
      pyStrip body
    else content

/-- `re.sub(r'^(?:\d+|\(\d+\)|\[\d+\])[\.\):]?\s*', '', t)`: strip a leading
enumeration marker (bare, parenthesised or bracketed digits), an optional
single separator and following whitespace.  The regex is anchored, so at
most the start of the string is affected. -/
def stripEnum (t : Str) : Str :=
  let afterNum : Option Str :=
    match t with
    | [] => none
    | c :: cs =>
      if isDigitCh c then some (t.dropWhile isDigitCh)
      else if c = '(' then
        let ds := cs.takeWhile isDigitCh
        if ds = [] then none
        else
          match cs.drop ds.length with
          | ')' :: r => some r
          | _ => none
      else if c = '[' then
        let ds := cs.takeWhile isDigitCh
        if ds = [] then none
        else
          match cs.drop ds.length with
          | ']' :: r => some r
          | _ => none
      else none
  match afterNum with
  | none => t
  | some r =>
    let r2 : Str :=
      match r with
      | c :: rest => if c = '.' ∨ c = ')' ∨ c = ':' then rest else r
      | [] => r
    r2.dropWhile isPySpace

/-- The string taken from one parsed array item by
`_clean_translation_entry`: a string is used as is, `None` becomes the empty
string, anything else is re-serialised with `json.dumps`. -/
def entryText (item : JVal) : Str :=
  match item with
  | JVal.jstr s => s
  | JVal.jnull => []
  | v => jsonDumps v

/-- The text-cleaning pipeline of `_clean_translation_entry`: strip, remove
code fences, remove a leading enumeration prefix. -/
def cleanEntryText (text : Str) : Str :=
  stripEnum (stripCodeFences (pyStrip text))

/-- `APIClient._clean_translation_entry`. -/
def cleanTranslationEntry (item : JVal) : Str := cleanEntryText (entryText item)

/-- The line-break characters recognised by Python `str.splitlines`
(`\r\n` counts as a single break). -/
def isLineBreak (c : Char) : Bool :=
  c = '\n' || c = '\r' || c = vtab || c = ffeed || c = Char.ofNat 28 ||
    c = Char.ofNat 29 || c = Char.ofNat 30 || c = Char.ofNat 133 ||
    c = Char.ofNat 8232 || c = Char.ofNat 8233

def splitLinesF : Nat → Str → List Str
  | 0, _ => []
  | fuel + 1, s =>
    match s with
    | [] => []
    | _ =>
      let line := s.takeWhile (fun c => !isLineBreak c)
      match s.drop line.length with
      | [] => [line]
      | '\r' :: '\n' :: rest => line :: splitLinesF fuel rest
      | _ :: rest => line :: splitLinesF fuel rest

/-- Python `str.splitlines()`. -/
def splitLines (s : Str) : List Str := splitLinesF s.length s

/-- The match of `re.search(r'\[[\s\S]*\]', s)`: the substring from the
first `'['` through the last `']'` after it, when such a pair exists. -/
def embeddedArrayMatch (s : Str) : Option Str :=
  match s.reverse.findIdx? (fun c => c == ']') with
  | none => none
  | some ri =>
    let j := s.length - 1 - ri
    match (s.take j).findIdx? (fun c => c == '[') with
    | none => none
    | some p => some ((s.drop p).take (j + 1 - p))

def transKey : Str := "translations".toList

/-- `if len(cleaned_results) == expected_count: return cleaned_results`:
accept a candidate list only when it has exactly the expected length. -/
def takeIfCount (expectedCount : Nat) (rs : List Str) : Option (List Str) :=
  if rs.length = expectedCount then some rs else none

/-- The `parsed_array` computed from the whole cleaned text: a JSON array
directly, or an object's `translations` field (an array, or a mapping whose
values are taken in insertion order). -/
def wholeParsedArray (cleaned : Str) : Option (List JVal) :=
  match pyLoads cleaned with
  | some (JVal.jobj fields) =>
    match objGet fields transKey with
    | some (JVal.jarr xs) => some xs
    | some (JVal.jobj inner) => some (inner.map (fun p => p.2))
    | _ => none
  | some (JVal.jarr xs) => some xs
  | _ => none

/-- The array parsed from the first bracketed substring
(`re.search(r'\[[\s\S]*\]', cleaned)`), when it is valid JSON and a list. -/
def embeddedParsedArray (cleaned : Str) : Option (List JVal) :=
  match embeddedArrayMatch cleaned with
  | some sub =>
    match pyLoads sub with
    | some (JVal.jarr xs) => some xs
    | _ => none
  | none => none

/-- The non-blank lines of the cleaned text, each cleaned as one item. -/
def nonBlankLines (cleaned : Str) : List Str :=
  ((splitLines cleaned).filter (fun l => pyStrip l != [])).map cleanEntryText

/-- Parse strategy (a): the whole cleaned text as JSON. -/
def strategyWholeJson (cleaned : Str) (expectedCount : Nat) : Option (List Str) :=
  match wholeParsedArray cleaned with
  | some xs => takeIfCount expectedCount (xs.map cleanTranslationEntry)
  | none => none

/-- Parse strategy (b): the first bracketed substring as a JSON array. -/
def strategyEmbedded (cleaned : Str) (expectedCount : Nat) : Option (List Str) :=
  match embeddedParsedArray cleaned with
  | some xs => takeIfCount expectedCount (xs.map cleanTranslationEntry)
  | none => none

/-- Parse strategy (c): one item per non-blank line. -/
def strategyLineSplit (cleaned : Str) (expectedCount : Nat) : Option (List Str) :=
  takeIfCount expectedCount (nonBlankLines cleaned)

/-- `APIClient._extract_batch_translations`, following the source's control
flow: strategy (a) on the fence-stripped text, then (b), then (c), each
accepted only when it yields exactly `expectedCount` items. -/
def extractBatchTranslations (rawContent : Str) (expectedCount : Nat) : Option (List Str) :=
  if rawContent = [] then none
  else
    let cleaned := stripCodeFences (pyStrip rawContent)
    match
      match wholeParsedArray cleaned with
      | some xs => takeIfCount expectedCount (xs.map cleanTranslationEntry)
      | none => none
    with
    | some rs => some rs
    | none =>
      match
        match embeddedParsedArray cleaned with
        | some xs => takeIfCount expectedCount (xs.map cleanTranslationEntry)
        | none => none
      with
      | some rs => some rs
      | none => takeIfCount expectedCount (nonBlankLines cleaned)

end XUnity

namespace XUnity

/-! ## API client operations (`APIClient`)

The network is external: each operation takes the outcome of its HTTP
request(s) as a parameter and returns, alongside its result, the number of
HTTP requests it issued.  Temperature and max-token parsing
(`float`/`int` conversions with defaults) are elided: they only shape the
outgoing payload, which no claim inspects.  The distinct Python exception
paths that produce an error result with the text of the exception are
conflated into single error constructors carrying a message; no claim
distinguishes those texts. -/

/-- The provider configuration read by the client (`config.get(...)`);
`none` models a missing key, `some []` an empty value — both falsy. -/
structure Config where
  api_url : Option Str
  api_key : Option Str
  model_name : Option Str
  system_prompt : Option Str

/-- Python truthiness of an optional string. -/
def truthy : Option Str → Bool
  | none => false
  | some s => !s.isEmpty

/-- Outcome of one `requests.post` call together with envelope decoding:
`resp status body` with `body = none` when `response.json()` fails. -/
inductive NetResult where
  | timeout
  | connError
  | exc (msg : Str)
  | resp (status : Nat) (body : Option JVal)

/-- Result dictionary of `translate_batch`: `ok` corresponds to
`{"success": True, "translations": ..., "usage": ...}` (`usage = none` for
the empty-input early return, which has no usage key), `err` to
`{"success": False, "text": msg}`. -/
inductive TBOutcome where
  | ok (translations : List Str) (usage : Option JVal)
  | err (msg : Str)

def natToStr (n : Nat) : Str := (toString n).toList

def configErrMsg : Str := "翻译失败: API配置不完整".toList

def tbTimeoutMsg : Str := "翻译失败: API请求超时".toList

def tbConnMsg : Str := "翻译失败: 无法连接到API服务器".toList

def tbExcPre : Str := "翻译失败: ".toList

def tbStatusPre : Str := "翻译失败: API返回错误码 ".toList

def tbEnvelopeMsg : Str := "翻译失败: 无法解析API响应".toList

def tbExtractMsg : Str := "翻译失败: 无法解析批量翻译结果".toList

/-- `APIClient._build_common_payload`: `none` models the `(None, error)`
return for an incomplete configuration. -/
def build_common_payload (cfg : Config) : Option (Str × Str × Option Str) :=
  if truthy cfg.api_url && truthy cfg.api_key && truthy cfg.model_name then
    some (cfg.api_url.getD [], cfg.model_name.getD [], cfg.system_prompt)
  else none

/-- `response_data["choices"][0]["message"]["content"]`, succeeding only on
a string content (any failure is an error result in the source). -/
def getReplyContent (rd : JVal) : Option Str :=
  match rd with
  | JVal.jobj fields =>
    match objGet fields ("choices".toList) with
    | some (JVal.jarr (first :: _)) =>
      match first with
      | JVal.jobj mf =>
        match objGet mf ("message".toList) with
        | some (JVal.jobj cf) =>
          match objGet cf ("content".toList) with
          | some (JVal.jstr s) => some s
          | _ => none
        | _ => none
      | _ => none
    | _ => none
  | _ => none

/-- `response_data.get("usage", {})`. -/
def usageOf (rd : JVal) : JVal :=
  match rd with
  | JVal.jobj fields => (objGet fields ("usage".toList)).getD (JVal.jobj [])
  | _ => JVal.jobj []

/-- `APIClient.translate_batch`.  `norm` is the character limiter
(`core.character_limiter.normalize_text`), a parameter here because its
allowed-glyph file and phonetic backend are external inputs (see the
`CharacterLimiter` section). -/
def translate_batch (norm : Str → Str) (cfg : Config) (texts : List Str)
    (net : NetResult) : TBOutcome × Nat :=
  if texts = [] then (TBOutcome.ok [] none, 0)
  else
    match build_common_payload cfg with
    | none => (TBOutcome.err configErrMsg, 0)
    | some _ =>
      match net with
      | NetResult.timeout => (TBOutcome.err tbTimeoutMsg, 1)
      | NetResult.connError => (TBOutcome.err tbConnMsg, 1)
      | NetResult.exc m => (TBOutcome.err (tbExcPre ++ m), 1)
      | NetResult.resp status body =>
        if status ≠ 200 then (TBOutcome.err (tbStatusPre ++ natToStr status), 1)
        else
          match body with
          | none => (TBOutcome.err tbEnvelopeMsg, 1)
          | some rd =>
            match getReplyContent rd with
            | none => (TBOutcome.err tbEnvelopeMsg, 1)
            | some rawContent =>
              match extractBatchTranslations rawContent texts.length with
              | none => (TBOutcome.err tbExtractMsg, 1)
              | some ts =>
                if ts = [] then (TBOutcome.err tbExtractMsg, 1)
                else
                  (TBOutcome.ok (ts.map (fun t => norm (sanitizeChat t)))
                    (some (usageOf rd)), 1)

/-- Result of `test_connection`. -/
inductive TCOutcome where
  | ok (message : Str) (content : Str) (usage : Option JVal)
  | fail (message : Str)

def tcUrlMsg : Str := "错误: API URL不能为空".toList

def tcKeyMsg : Str := "错误: API Key不能为空".toList

def tcModelMsg : Str := "错误: 模型名称不能为空".toList

def tcTimeoutMsg : Str := "错误: API请求超时".toList

def tcConnMsg : Str := "错误: 无法连接到API服务器，请检查网络或API URL是否正确".toList

def tcExcPre : Str := "测试配置时发生错误: ".toList

def tcStatusPre : Str := "API请求失败，HTTP状态码: ".toList

def tcParseMsg : Str := "解析API响应时出错".toList

def tcOkPre : Str := "API响应成功！回复内容: ".toList

/-- `APIClient.test_connection`. -/
def test_connection (cfg : Config) (net : NetResult) : TCOutcome × Nat :=
  if ¬ truthy cfg.api_url then (TCOutcome.fail tcUrlMsg, 0)
  else if ¬ truthy cfg.api_key then (TCOutcome.fail tcKeyMsg, 0)
  else if ¬ truthy cfg.model_name then (TCOutcome.fail tcModelMsg, 0)
  else
    match net with
    | NetResult.timeout => (TCOutcome.fail tcTimeoutMsg, 1)
    | NetResult.connError => (TCOutcome.fail tcConnMsg, 1)
    | NetResult.exc m => (TCOutcome.fail (tcExcPre ++ m), 1)
    | NetResult.resp status body =>
      if status = 200 then
        match body with
        | none => (TCOutcome.fail tcExcPre, 1)
        | some rd =>
          match getReplyContent rd with
          | none => (TCOutcome.fail tcParseMsg, 1)
          | some reply =>
            let usage : Option JVal :=
              match rd with
              | JVal.jobj fields => objGet fields ("usage".toList)
              | _ => none
            (TCOutcome.ok (tcOkPre ++ reply) reply usage, 1)
      else (TCOutcome.fail (tcStatusPre ++ natToStr status), 1)

end XUnity

namespace XUnity

/-! ## `get_model_list` -/

def replaceAllF (pat rep : Str) : Nat → Str → Str
  | 0, s => s
  | fuel + 1, s =>
    match s with
    | [] => []
    | c :: cs =>
      if pat ≠ [] ∧ pat.isPrefixOf (c :: cs) then
        rep ++ replaceAllF pat rep fuel ((c :: cs).drop pat.length)
      else c :: replaceAllF pat rep fuel cs

/-- Python `str.replace` (all occurrences, left to right). -/
def replaceAll (pat rep s : Str) : Str := replaceAllF pat rep s.length s

/-- Python `str.split(sep)` for a single-character separator (keeps empty
pieces). -/
def splitOnCh (sep : Char) : Str → List Str
  | [] => [[]]
  | c :: cs =>
    let r := splitOnCh sep cs
    if c = sep then [] :: r
    else
      match r with
      | h :: t => (c :: h) :: t
      | [] => [[c]]

/-- Python `str.rstrip("/")`. -/
def rstripSlash (s : Str) : Str :=
  (s.reverse.dropWhile (fun c => c == '/')).reverse

def chatCompletionsSuffix : Str := "/chat/completions".toList

def chatCompletionsPat : Str := "chat/completions".toList

def modelsWord : Str := "models".toList

def unknownStr : Str := "未知".toList

/-- Outcome of one `requests.get` in the model-list loop: `gfail` is any
`RequestException` (caught by the loop's `continue`); a body of `none`
models an undecodable JSON body (`requests`' JSON error, a
`RequestException` subclass in the versions this code targets). -/
inductive GetResult where
  | gfail
  | gresp (status : Nat) (body : Option JVal)

inductive GMOutcome where
  | ok (models : List Str)
  | fail (message : Str)

def gmUrlMsg : Str := "获取模型列表失败: API URL不能为空".toList

def gmKeyMsg : Str := "获取模型列表失败: API Key不能为空".toList

def gmFailMsg : Str := "无法获取模型列表，请检查API配置".toList

/-- One model entry: `model.get("id", ...)` with the `"models"`-branch
fallback to `"name"`.  Non-string id values (never produced by the APIs in
scope and not exercised by any claim) are rendered with `json.dumps`. -/
def modelIdOf (useName : Bool) (v : JVal) : Str :=
  match v with
  | JVal.jobj mf =>
    match objGet mf ("id".toList) with
    | some (JVal.jstr s) => s
    | some w => jsonDumps w
    | none =>
      if useName then
        match objGet mf ("name".toList) with
        | some (JVal.jstr s) => s
        | some w => jsonDumps w
        | none => unknownStr
      else unknownStr
  | _ => unknownStr

/-- The models list extracted from a 200-response body (`data` first, then
`models`; anything else leaves the list empty and the loop continues). -/
def modelsFromBody (rd : JVal) : List Str :=
  match rd with
  | JVal.jobj fields =>
    match objGet fields ("data".toList) with
    | some (JVal.jarr xs) => xs.map (modelIdOf false)
    | _ =>
      match objGet fields ("models".toList) with
      | some (JVal.jarr xs) => xs.map (modelIdOf true)
      | _ => []
  | _ => []

/-- The endpoint loop of `get_model_list`; `n` counts issued requests. -/
def gmLoop (net : Nat → GetResult) : List Str → Nat → GMOutcome × Nat
  | [], n => (GMOutcome.fail gmFailMsg, n)
  | _ :: rest, n =>
    match net n with
    | GetResult.gfail => gmLoop net rest (n + 1)
    | GetResult.gresp status body =>
      if status = 200 then
        match body with
        | none => gmLoop net rest (n + 1)
        | some rd =>
          let ms := modelsFromBody rd
          if ms ≠ [] then (GMOutcome.ok ms, n + 1) else gmLoop net rest (n + 1)
      else gmLoop net rest (n + 1)

/-- `APIClient.get_model_list`; `net i` is the outcome of the `i`-th
attempted GET. -/
def get_model_list (cfg : Config) (net : Nat → GetResult) : GMOutcome × Nat :=
  if ¬ truthy cfg.api_url then (GMOutcome.fail gmUrlMsg, 0)
  else if ¬ truthy cfg.api_key then (GMOutcome.fail gmKeyMsg, 0)
  else
    let apiUrl0 := cfg.api_url.getD []
    let apiUrl :=
      if chatCompletionsSuffix.isSuffixOf apiUrl0 then apiUrl0
      else rstripSlash apiUrl0 ++ chatCompletionsSuffix
    let baseUrl := List.intercalate ['/'] ((splitOnCh '/' apiUrl).take 3)
    let endpoints : List Str :=
      [baseUrl ++ "/models".toList, baseUrl ++ "/v1/models".toList,
        replaceAll chatCompletionsPat modelsWord apiUrl]
    gmLoop net endpoints 0

end XUnity

namespace XUnity

/-! ## Character limiter (`core.character_limiter`)

The allowed-glyph file and the `pypinyin` backend are external inputs: the
glyph list is a parameter (the source falls back to an empty list when the
file cannot be read) and the phonetic backend is a parameter record (the
source degrades to identity replacement when `pypinyin` is missing).  The
per-character replacement cache and the `lru_cache` wrapper are pure
memoization and are elided. -/

/-- Membership in Python's `string.printable` (ASCII 0x20–0x7E plus
`\t\n\r\x0b\x0c`). -/
def printableAscii (c : Char) : Bool :=
  (32 ≤ c.toNat && c.toNat ≤ 126) || c = '\t' || c = '\n' || c = '\r' ||
    c = vtab || c = ffeed

/-- The `pypinyin` backend: `available` is `lazy_pinyin is not None`;
`toneKeys`/`normalKeys` are the two romanization calls. -/
structure PinyinBackend where
  available : Bool
  toneKeys : Char → List Str
  normalKeys : Char → List Str

/-- Order-preserving deduplication (`dict.fromkeys`). -/
def dedupStrs (l : List Str) : List Str :=
  l.foldl (fun acc k => if acc.contains k then acc else acc ++ [k]) []

/-- `CharacterLimiter._generate_pinyin_keys`. -/
def generate_pinyin_keys (B : PinyinBackend) (c : Char) : List Str :=
  if B.available then
    dedupStrs ([B.toneKeys c, B.normalKeys c].filterMap (fun seq =>
      match seq with
      | [] => none
      | k :: _ => if k = [] then none else some k))
  else []

/-- `self._pinyin_to_chars.setdefault(key, []).append(ch)` on an
association list. -/
def indexAdd (idx : List (Str × List Char)) (key : Str) (ch : Char) :
    List (Str × List Char) :=
  if idx.any (fun p => p.1 == key) then
    idx.map (fun p => if p.1 = key then (p.1, p.2 ++ [ch]) else p)
  else idx ++ [(key, [ch])]

/-- `CharacterLimiter._build_pinyin_index`. -/
def build_pinyin_index (B : PinyinBackend) (allowed : List Char) :
    List (Str × List Char) :=
  allowed.foldl (fun idx ch =>
    (generate_pinyin_keys B ch).foldl
      (fun idx2 key => if key = [] then idx2 else indexAdd idx2 key ch) idx) []

/-- `CharacterLimiter._find_replacement`. -/
def find_replacement (B : PinyinBackend) (idx : List (Str × List Char))
    (c : Char) : Char :=
  if ¬ B.available then c
  else
    match (generate_pinyin_keys B c).findSome? (fun k =>
      match (idx.find? (fun p => p.1 == k)).map (fun p => p.2) with
      | some (x :: _) => some x
      | _ => none) with
    | some x => x
    | none => c

/-- `self.base_allowed`: `string.printable` extended with the loaded
allowed glyphs. -/
def baseAllowedB (allowed : List Char) (c : Char) : Bool :=
  printableAscii c || allowed.contains c

/-- `CharacterLimiter._normalize_char` (replacement cache elided). -/
def normalize_char (B : PinyinBackend) (allowed : List Char)
    (idx : List (Str × List Char)) (c : Char) : Char :=
  if baseAllowedB allowed c then c
  else if isPySpace c then ' '
  else find_replacement B idx c

/-- `CharacterLimiter.normalize_text` with the index built at
construction. -/
def normalize_text (B : PinyinBackend) (allowed : List Char) (text : Str) : Str :=
  if text = [] then text
  else text.map (normalize_char B allowed (build_pinyin_index B allowed))

/-! ## HTTP front end (`TranslationHandler`)

`convert_punctuation` comes from `core.utils`, which is not part of the
sources; it is applied item-wise and is an opaque parameter `cp` here — no
claim depends on its behaviour.  The token-usage and conversation-history
hooks are observational and elided.  The shutdown flag is read twice by
`_process_translation_request` (before translating and before queueing), so
the two reads are separate parameters. -/

/-- A message deposited in the per-request result queue. -/
inductive QueueMsg where
  | qok (translations : List Str) (usage : Option JVal)
  | qerr (msg : Str)

def shutdownMsg : Str := "翻译失败: 应用程序正在关闭".toList

def clientMissingMsg : Str := "翻译失败: API客户端未初始化".toList

def mismatchMsg : Str := "翻译失败: 返回数量与请求数量不匹配".toList

def waitTimeoutMsg : Str := "翻译失败: 处理超时".toList

def plainFailMsg : Str := "翻译失败".toList

/-- `result.get("text") or result.get("error") or "翻译失败"` for a failed
`translate_batch` result (which carries only `text`). -/
def errMsgOf (m : Str) : Str := if m = [] then plainFailMsg else m

/-- `TranslationHandler._process_translation_request`: the message queued
for the waiting handler, `none` when the result is abandoned because the
application began shutting down after translation. -/
def process_translation_request (norm : Str → Str) (cfg : Config)
    (net : NetResult) (cp : Str → Str) (shutAtStart shutAtEnd : Bool)
    (hasClient : Bool) (payload : List Str) : Option QueueMsg :=
  if shutAtStart then some (QueueMsg.qerr shutdownMsg)
  else if ¬ hasClient then some (QueueMsg.qerr clientMissingMsg)
  else
    match translate_batch norm cfg payload net with
    | (TBOutcome.err m, _) => some (QueueMsg.qerr (errMsgOf m))
    | (TBOutcome.ok ts u, _) =>
      if ts.length ≠ payload.length then some (QueueMsg.qerr mismatchMsg)
      else
        let converted := ts.map cp
        if shutAtEnd then none
        else some (QueueMsg.qok converted u)

/-- `TranslationHandler._wait_for_result` over a trace of poll iterations:
each element is one 0.5-second iteration of the waiting loop, carrying the
shutdown flag as read at the start of that iteration and the queue content
offered to that iteration's `get`; the finite trace length models the
180-second ceiling.  The flag is checked before the queue, exactly as in
the source loop. -/
def wait_for_result (trace : List (Bool × Option QueueMsg)) : QueueMsg :=
  match trace with
  | [] => QueueMsg.qerr waitTimeoutMsg
  | (shut, q) :: rest =>
    if shut then QueueMsg.qerr shutdownMsg
    else
      match q with
      | some m => m
      | none => wait_for_result rest

/-- Python truthiness of a JSON value (`if usage:`). -/
def jvalTruthy : JVal → Bool
  | JVal.jnull => false
  | JVal.jbool b => b
  | JVal.jnum n => decide (n ≠ 0)
  | JVal.jstr s => !s.isEmpty
  | JVal.jarr l => !l.isEmpty
  | JVal.jobj f => !f.isEmpty

/-- The HTTP status and body `do_POST` writes for a completed wait: failures
become a plain-text 500 with the error message, successes a JSON 200 with
the translations and, when truthy, the usage counters. -/
def respond_result (m : QueueMsg) : Nat × Str :=
  match m with
  | QueueMsg.qerr msg => (500, msg)
  | QueueMsg.qok ts u =>
    let usageFields : List (Str × JVal) :=
      match u with
      | some uv => if jvalTruthy uv then [("usage".toList, uv)] else []
      | none => []
    (200, jsonDumps (JVal.jobj
      (("translations".toList, JVal.jarr (ts.map JVal.jstr)) :: usageFields)))

end XUnity

namespace XUnity

/-! ## Lemmas about the extraction pipeline -/

theorem orElse_eq_some {α : Type} {o : Option α} {f : Unit → Option α} {l : α}
    (h : o.orElse f = some l) : o = some l ∨ f () = some l := by
  cases o
  · right; exact h
  · left; exact h

theorem takeIfCount_length {n : Nat} {rs l : List Str}
    (h : takeIfCount n rs = some l) : l.length = n := by
  unfold takeIfCount at h
  split at h
  · cases h; assumption
  · cases h

theorem strategyWholeJson_length {c : Str} {n : Nat} {l : List Str}
    (h : strategyWholeJson c n = some l) : l.length = n := by
  unfold strategyWholeJson at h
  split at h
  · exact takeIfCount_length h
  · cases h

theorem strategyEmbedded_length {c : Str} {n : Nat} {l : List Str}
    (h : strategyEmbedded c n = some l) : l.length = n := by
  unfold strategyEmbedded at h
  split at h
  · exact takeIfCount_length h
  · cases h

theorem strategyLineSplit_length {c : Str} {n : Nat} {l : List Str}
    (h : strategyLineSplit c n = some l) : l.length = n := by
  exact takeIfCount_length h

/-- The monolithic extractor is the ordered first-success composition of the
three parse strategies on the fence-stripped trimmed reply. -/
theorem extract_eq_strategies (raw : Str) (n : Nat) :
    extractBatchTranslations raw n =
      if raw = [] then none
      else
        ((strategyWholeJson (stripCodeFences (pyStrip raw)) n).orElse (fun _ =>
          (strategyEmbedded (stripCodeFences (pyStrip raw)) n).orElse (fun _ =>
            strategyLineSplit (stripCodeFences (pyStrip raw)) n))) := by
  unfold extractBatchTranslations
  split
  · rfl
  · show (match strategyWholeJson (stripCodeFences (pyStrip raw)) n with
      | some rs => some rs
      | none =>
        match strategyEmbedded (stripCodeFences (pyStrip raw)) n with
        | some rs => some rs
        | none => strategyLineSplit (stripCodeFences (pyStrip raw)) n) = _
    cases strategyWholeJson (stripCodeFences (pyStrip raw)) n with
    | some rs => rfl
    | none =>
      cases strategyEmbedded (stripCodeFences (pyStrip raw)) n with
      | some rs => rfl
      | none => rfl

/-- Whatever strategy succeeds, the extracted list has exactly the expected
length. -/
theorem extract_length {raw : Str} {n : Nat} {l : List Str}
    (h : extractBatchTranslations raw n = some l) : l.length = n := by
  rw [extract_eq_strategies] at h
  split at h
  · cases h
  · rcases orElse_eq_some h with h1 | h1
    · exact strategyWholeJson_length h1
    · rcases orElse_eq_some h1 with h2 | h2
      · exact strategyEmbedded_length h2
      · exact strategyLineSplit_length h2

/-- Every extracted item has been through the per-item cleaning pipeline
(strip, code-fence removal, enumeration-prefix removal). -/
theorem extract_items_cleaned {raw : Str} {n : Nat} {l : List Str}
    (h : extractBatchTranslations raw n = some l) :
    ∃ ts : List Str, l = ts.map cleanEntryText := by
  rw [extract_eq_strategies] at h
  split at h
  · cases h
  · have hstrat : ∀ {c : Str} {l' : List Str},
        (∃ xs, l' = List.map cleanTranslationEntry xs) ∨ l' = nonBlankLines c →
        ∃ ts : List Str, l' = ts.map cleanEntryText := by
      intro c l' hc
      rcases hc with ⟨xs, rfl⟩ | rfl
      · exact ⟨xs.map entryText, by rw [List.map_map]; rfl⟩
      · exact ⟨(splitLines c).filter (fun x => pyStrip x != []), rfl⟩
    rcases orElse_eq_some h with h1 | h1
    · unfold strategyWholeJson at h1
      split at h1
      · unfold takeIfCount at h1
        split at h1
        · cases h1; exact hstrat (c := raw) (Or.inl ⟨_, rfl⟩)
        · cases h1
      · cases h1
    · rcases orElse_eq_some h1 with h2 | h2
      · unfold strategyEmbedded at h2
        split at h2
        · unfold takeIfCount at h2
          split at h2
          · cases h2; exact hstrat (c := raw) (Or.inl ⟨_, rfl⟩)
          · cases h2
        · cases h2
      · unfold strategyLineSplit takeIfCount at h2
        split at h2
        · cases h2; exact hstrat (Or.inr rfl)
        · cases h2

end XUnity

namespace XUnity

/-! ## Concrete fixtures -/

/-- A complete provider configuration. -/
def cfgOK : Config :=
  ⟨some ("http://api.example/v1/chat/completions".toList), some ("k".toList),
    some ("m".toList), some []⟩

/-- A 200 chat-completion response whose first choice carries `content`. -/
def mkNetContent (content : Str) : NetResult :=
  NetResult.resp 200 (some (JVal.jobj [("choices".toList, JVal.jarr
    [JVal.jobj [("message".toList, JVal.jobj
      [("content".toList, JVal.jstr content)])]])]))

/-- Inversion of a successful `translate_batch` on a non-empty batch: the
network must have returned a 200 envelope with a string content, extraction
must have succeeded for the batch size, and the returned translations are
exactly the item-wise post-processing of the extracted array. -/
theorem translate_batch_ok_inv {norm : Str → Str} {cfg : Config}
    {texts : List Str} {net : NetResult} {ts : List Str} {u : Option JVal}
    {n : Nat} (hne : texts ≠ [])
    (h : translate_batch norm cfg texts net = (TBOutcome.ok ts u, n)) :
    ∃ rd rawContent items,
      net = NetResult.resp 200 (some rd) ∧
      getReplyContent rd = some rawContent ∧
      extractBatchTranslations rawContent texts.length = some items ∧
      ts = items.map (fun t => norm (sanitizeChat t)) := by
  unfold translate_batch at h
  rw [if_neg hne] at h
  cases hb : build_common_payload cfg <;> rw [hb] at h
  · simp at h
  · cases net with
    | timeout => simp at h
    | connError => simp at h
    | exc m => simp at h
    | resp status body =>
      simp only at h
      split at h
      · simp at h
      · rename_i hst
        have hst200 : status = 200 := by omega
        subst hst200
        cases body with
        | none => simp at h
        | some rd =>
          simp only at h
          cases hrc : getReplyContent rd <;> rw [hrc] at h <;> dsimp only at h
          · simp at h
          · rename_i rawContent
            cases hex : extractBatchTranslations rawContent texts.length <;>
              rw [hex] at h <;> dsimp only at h
            · simp at h
            · rename_i items
              split at h
              · simp at h
              · refine ⟨rd, rawContent, items, rfl, hrc, hex, ?_⟩
                have := congrArg Prod.fst h
                simp at this
                exact this.1.symm

/-! ## Claim theorems -/

/-- C1: for every non-empty input batch, a successful `translate_batch`
result has exactly one translation per input: the translations list is the
item-wise post-processing (per-item sanitisation, then character limiting)
of the extracted array, whose length equals the input length, in order
(no reordering, deduplication, padding or truncation); and the server-side
worker only ever queues a success whose translation count matches the
request count. -/
theorem claim_C1 :
    (∀ (norm : Str → Str) (cfg : Config) (texts : List Str) (net : NetResult)
        (ts : List Str) (u : Option JVal) (n : Nat),
      texts ≠ [] →
      translate_batch norm cfg texts net = (TBOutcome.ok ts u, n) →
      ts.length = texts.length ∧
        ∃ rawContent items,
          extractBatchTranslations rawContent texts.length = some items ∧
          items.length = texts.length ∧
          ts = items.map (fun t => norm (sanitizeChat t))) ∧
    (∀ (norm : Str → Str) (cfg : Config) (net : NetResult) (cp : Str → Str)
        (s1 s2 : Bool) (hc : Bool) (payload : List Str) (ts : List Str)
        (u : Option JVal),
      process_translation_request norm cfg net cp s1 s2 hc payload =
          some (QueueMsg.qok ts u) →
      ts.length = payload.length) := by
  constructor
  · intro norm cfg texts net ts u n hne h
    obtain ⟨rd, raw, items, _, _, hex, hts⟩ := translate_batch_ok_inv hne h
    have hlen := extract_length hex
    subst hts
    exact ⟨by simp [hlen], raw, items, hex, hlen, rfl⟩
  · intro norm cfg net cp s1 s2 hc payload ts u h
    unfold process_translation_request at h
    split at h
    · simp at h
    · split at h
      · simp at h
      · rcases htb : translate_batch norm cfg payload net with ⟨res, cnt⟩
        rw [htb] at h
        cases res with
        | err m => simp at h
        | ok ts2 u2 =>
          dsimp only at h
          split at h
          · simp at h
          · rename_i hlen
            split at h
            · cases h
            · simp only [Option.some.injEq, QueueMsg.qok.injEq] at h
              rw [← h.1, List.length_map]
              omega

/-- C1 witness: a concrete successful two-element batch, through both the
client and the worker. -/
theorem claim_C1_witness :
    ((["x".toList, "y".toList] : List Str) ≠ [] ∧
      ∃ ts u n, translate_batch (fun s => s) cfgOK ["x".toList, "y".toList]
          (mkNetContent ("[\"a\",\"b\"]".toList)) = (TBOutcome.ok ts u, n) ∧
        ts.length = 2) ∧
    ∃ ts u, process_translation_request (fun s => s) cfgOK
        (mkNetContent ("[\"a\",\"b\"]".toList)) (fun s => s) false false true
        ["x".toList, "y".toList] = some (QueueMsg.qok ts u) ∧ ts.length = 2 := by
  constructor
  · refine ⟨by decide, ["a".toList, "b".toList], some (JVal.jobj []), 1, rfl, ?_⟩
    exact (claim_C1.1 (fun s => s) cfgOK ["x".toList, "y".toList]
      (mkNetContent ("[\"a\",\"b\"]".toList)) _ _ _ (by decide) rfl).1
  · refine ⟨["a".toList, "b".toList], some (JVal.jobj []), rfl, ?_⟩
    exact claim_C1.2 (fun s => s) cfgOK (mkNetContent ("[\"a\",\"b\"]".toList))
      (fun s => s) false false true ["x".toList, "y".toList] _ _ rfl

/-- C2: no parse strategy ever returns a list whose length differs from the
expected count, the extractor inherits that guarantee, and concretely a
3-element JSON array with expected count 2 is a hard extraction failure
which `translate_batch` surfaces as a failed result (never truncated or
padded). -/
theorem claim_C2 :
    (∀ (c : Str) (n : Nat) (l : List Str),
      strategyWholeJson c n = some l → l.length = n) ∧
    (∀ (c : Str) (n : Nat) (l : List Str),
      strategyEmbedded c n = some l → l.length = n) ∧
    (∀ (c : Str) (n : Nat) (l : List Str),
      strategyLineSplit c n = some l → l.length = n) ∧
    (∀ (raw : Str) (n : Nat) (l : List Str),
      extractBatchTranslations raw n = some l → l.length = n) ∧
    extractBatchTranslations ("[\"a\",\"b\",\"c\"]".toList) 2 = none ∧
    (translate_batch (fun s => s) cfgOK ["x".toList, "y".toList]
        (mkNetContent ("[\"a\",\"b\",\"c\"]".toList))).1 = TBOutcome.err tbExtractMsg :=
  ⟨fun _ _ _ h => strategyWholeJson_length h,
   fun _ _ _ h => strategyEmbedded_length h,
   fun _ _ _ h => strategyLineSplit_length h,
   fun _ _ _ h => extract_length h, rfl, rfl⟩

/-- C2 witness: a successful 2-for-2 extraction and its length, via the
extractor length invariant. -/
theorem claim_C2_witness :
    extractBatchTranslations ("[\"a\",\"b\"]".toList) 2 = some ["a".toList, "b".toList] ∧
    (["a".toList, "b".toList] : List Str).length = 2 :=
  ⟨rfl, claim_C2.2.2.2.1 ("[\"a\",\"b\"]".toList) 2 ["a".toList, "b".toList] rfl⟩

/-- C3 counterexample: on the reply `<think>["x","y"]</think>`,
sanitize-then-extract (the claimed order) rejects the reply, but the code
extracts from the raw reply and succeeds — `translate_batch` returns the
array found inside the reasoning markup. -/
theorem claim_C3_counterexample :
    extractBatchTranslations (sanitizeChat ("<think>[\"x\",\"y\"]</think>".toList)) 2
      = none ∧
    extractBatchTranslations ("<think>[\"x\",\"y\"]</think>".toList) 2
      = some ["x".toList, "y".toList] ∧
    extractBatchTranslations (sanitizeChat ("<think>[\"x\",\"y\"]</think>".toList)) 2
      ≠ extractBatchTranslations ("<think>[\"x\",\"y\"]</think>".toList) 2 ∧
    (translate_batch (fun s => s) cfgOK ["t1".toList, "t2".toList]
        (mkNetContent ("<think>[\"x\",\"y\"]</think>".toList))).1
      = TBOutcome.ok ["x".toList, "y".toList] (some (JVal.jobj [])) :=
  ⟨rfl, rfl, by decide, rfl⟩

/-- C3 amended: `translate_batch` extracts from the raw reply (trimmed and
code-fence-stripped) before any reasoning-markup removal; markup removal and
truncation are applied to each extracted item afterwards.  A reply of the
form `<think>X</think>` followed by a valid JSON array of the expected
length is still extracted successfully via the embedded-array strategy
(concrete instance below). -/
theorem claim_C3_amended :
    (∀ (norm : Str → Str) (cfg : Config) (texts : List Str) (net : NetResult)
        (ts : List Str) (u : Option JVal) (n : Nat), texts ≠ [] →
      translate_batch norm cfg texts net = (TBOutcome.ok ts u, n) →
      ∃ rd rawContent items,
        net = NetResult.resp 200 (some rd) ∧
        getReplyContent rd = some rawContent ∧
        extractBatchTranslations rawContent texts.length = some items ∧
        ts = items.map (fun t => norm (sanitizeChat t))) ∧
    extractBatchTranslations ("<think>ignore me</think>[\"a\",\"b\"]".toList) 2
      = some ["a".toList, "b".toList] :=
  ⟨fun _ _ _ _ _ _ _ hne h => translate_batch_ok_inv hne h, rfl⟩

/-- C3 witness: the amended characterisation at a concrete successful
batch. -/
theorem claim_C3_witness :
    (["t1".toList, "t2".toList] : List Str) ≠ [] ∧
    ∃ rd rawContent items,
      mkNetContent ("<think>ignore me</think>[\"a\",\"b\"]".toList)
        = NetResult.resp 200 (some rd) ∧
      getReplyContent rd = some rawContent ∧
      extractBatchTranslations rawContent 2 = some items ∧
      (["a".toList, "b".toList] : List Str)
        = items.map (fun t => (fun s => s) (sanitizeChat t)) :=
  ⟨by decide, claim_C3_amended.1 (fun s => s) cfgOK ["t1".toList, "t2".toList]
    (mkNetContent ("<think>ignore me</think>[\"a\",\"b\"]".toList)) _ _ _
    (by decide) rfl⟩

/-- C5: the extractor is exactly the ordered first-success composition of
whole-text JSON, first-bracketed-substring JSON and non-blank-line split;
every returned item has been through the per-item cleaning (strip, code
fences, enumeration prefix); and the two concrete examples: a fenced
two-element array, and two numbered lines. -/
theorem claim_C5 :
    (∀ (raw : Str) (n : Nat), extractBatchTranslations raw n =
      if raw = [] then none
      else (strategyWholeJson (stripCodeFences (pyStrip raw)) n).orElse (fun _ =>
        (strategyEmbedded (stripCodeFences (pyStrip raw)) n).orElse (fun _ =>
          strategyLineSplit (stripCodeFences (pyStrip raw)) n))) ∧
    (∀ (raw : Str) (n : Nat) (l : List Str), extractBatchTranslations raw n = some l →
      ∃ ts : List Str, l = ts.map cleanEntryText) ∧
    extractBatchTranslations (fenceMark ++ "\n[\"a\",\"b\"]\n".toList ++ fenceMark) 2
      = some ["a".toList, "b".toList] ∧
    extractBatchTranslations ("1. 你好\n2. 世界".toList) 2
      = some ["你好".toList, "世界".toList] :=
  ⟨extract_eq_strategies, fun _ _ _ h => extract_items_cleaned h, rfl, rfl⟩

/-- C5 witness: the numbered-line example together with its per-item
cleaning decomposition. -/
theorem claim_C5_witness :
    extractBatchTranslations ("1. 你好\n2. 世界".toList) 2
      = some ["你好".toList, "世界".toList] ∧
    ∃ ts : List Str, (["你好".toList, "世界".toList] : List Str) = ts.map cleanEntryText :=
  ⟨rfl, claim_C5.2.1 ("1. 你好\n2. 世界".toList) 2 ["你好".toList, "世界".toList] rfl⟩

/-- C10: `translate_batch` on an empty batch returns success with an empty
translations list (and no usage key) immediately, with no configuration
validation and no network request, whatever the configuration. -/
theorem claim_C10 (norm : Str → Str) (cfg : Config) (net : NetResult) :
    translate_batch norm cfg [] net = (TBOutcome.ok [] none, 0) := rfl

end XUnity

namespace XUnity

/-! ## C4: configuration validation before network I/O -/

/-- A configuration with endpoint and key but no model identifier. -/
def cfgNoModel : Config :=
  ⟨some ("http://x".toList), some ("k".toList), none, none⟩

/-- C4 counterexample: with the model identifier missing but endpoint and
key present, `get_model_list` still issues its three endpoint requests (it
never checks the model identifier), refuting "every remote operation … and
no network request of any kind is issued". -/
theorem claim_C4_counterexample :
    truthy cfgNoModel.model_name = false ∧
    (get_model_list cfgNoModel (fun _ => GetResult.gfail)).2 = 3 ∧
    (3 : Nat) ≠ 0 :=
  ⟨rfl, rfl, by decide⟩

/-- C4 amended: `translate_batch` (on a non-empty batch) and
`test_connection` fail fast with a configuration error and zero network
requests when the endpoint, key or model identifier is missing or empty;
`get_model_list` does so only for a missing endpoint or key — it does not
consult the model identifier at all (its result is invariant under changing
it). -/
theorem claim_C4_amended :
    (∀ (norm : Str → Str) (cfg : Config) (texts : List Str) (net : NetResult),
      texts ≠ [] →
      (truthy cfg.api_url = false ∨ truthy cfg.api_key = false ∨
        truthy cfg.model_name = false) →
      translate_batch norm cfg texts net = (TBOutcome.err configErrMsg, 0)) ∧
    (∀ (cfg : Config) (net : NetResult),
      (truthy cfg.api_url = false ∨ truthy cfg.api_key = false ∨
        truthy cfg.model_name = false) →
      ∃ m, test_connection cfg net = (TCOutcome.fail m, 0)) ∧
    (∀ (cfg : Config) (net : Nat → GetResult),
      (truthy cfg.api_url = false ∨ truthy cfg.api_key = false) →
      ∃ m, get_model_list cfg net = (GMOutcome.fail m, 0)) ∧
    (∀ (cfg : Config) (net : Nat → GetResult) (m' : Option Str),
      get_model_list { cfg with model_name := m' } net = get_model_list cfg net) := by
  refine ⟨?_, ?_, ?_, ?_⟩
  · intro norm cfg texts net hne hmiss
    unfold translate_batch
    rw [if_neg hne]
    have hb : build_common_payload cfg = none := by
      unfold build_common_payload
      rcases hmiss with h | h | h <;> simp [h]
    rw [hb]
  · intro cfg net hmiss
    unfold test_connection
    by_cases hu : truthy cfg.api_url
    · rw [if_neg (by simp [hu])]
      by_cases hk : truthy cfg.api_key
      · rw [if_neg (by simp [hk])]
        have hm : ¬ truthy cfg.model_name = true := by
          rcases hmiss with h | h | h
          · rw [h] at hu; simp at hu
          · rw [h] at hk; simp at hk
          · simp [h]
        rw [if_pos hm]
        exact ⟨_, rfl⟩
      · rw [if_pos hk]
        exact ⟨_, rfl⟩
    · rw [if_pos hu]
      exact ⟨_, rfl⟩
  · intro cfg net hmiss
    unfold get_model_list
    by_cases hu : truthy cfg.api_url
    · rw [if_neg (by simp [hu])]
      have hk : ¬ truthy cfg.api_key = true := by
        rcases hmiss with h | h
        · rw [h] at hu; simp at hu
        · simp [h]
      rw [if_pos hk]
      exact ⟨_, rfl⟩
    · rw [if_pos hu]
      exact ⟨_, rfl⟩
  · intro cfg net m'
    rfl

/-- C4 witness: concrete fail-fast runs of all three operations with a
missing field. -/
theorem claim_C4_witness :
    (truthy cfgNoModel.api_url = false ∨ truthy cfgNoModel.api_key = false ∨
      truthy cfgNoModel.model_name = false) ∧
    translate_batch (fun s => s) cfgNoModel ["x".toList]
        (mkNetContent ("[\"a\"]".toList)) = (TBOutcome.err configErrMsg, 0) ∧
    (∃ m, test_connection cfgNoModel (mkNetContent ("hi".toList))
      = (TCOutcome.fail m, 0)) ∧
    ∃ m, get_model_list ⟨none, some ("k".toList), none, none⟩
        (fun _ => GetResult.gfail) = (GMOutcome.fail m, 0) := by
  refine ⟨by decide, ?_, ?_, ?_⟩
  · exact claim_C4_amended.1 (fun s => s) cfgNoModel ["x".toList]
      (mkNetContent ("[\"a\"]".toList)) (by decide) (by decide)
  · exact claim_C4_amended.2.1 cfgNoModel (mkNetContent ("hi".toList)) (by decide)
  · exact claim_C4_amended.2.2.1 ⟨none, some ("k".toList), none, none⟩
      (fun _ => GetResult.gfail) (by decide)

/-! ## C7: character normalisation -/

theorem findSome?_some {α β : Type} {l : List α} {f : α → Option β} {x : β}
    (h : l.findSome? f = some x) : ∃ a ∈ l, f a = some x := by
  induction l with
  | nil => simp [List.findSome?] at h
  | cons a as ih =>
    rw [List.findSome?_cons] at h
    cases hf : f a <;> rw [hf] at h
    · obtain ⟨b, hb, hfb⟩ := ih h
      exact ⟨b, List.mem_cons_of_mem _ hb, hfb⟩
    · cases h; exact ⟨a, List.mem_cons_self _ _, hf⟩

theorem foldl_preserves {α β : Type} {P : β → Prop} {f : β → α → β} {l : List α}
    {init : β} (hinit : P init) (hstep : ∀ b a, a ∈ l → P b → P (f b a)) :
    P (l.foldl f init) := by
  induction l generalizing init with
  | nil => exact hinit
  | cons a as ih =>
    exact ih (hstep init a (by simp) hinit)
      (fun b a' ha' hb => hstep b a' (by simp [ha']) hb)

theorem indexAdd_sub {idx : List (Str × List Char)} {key : Str} {ch : Char}
    {allowed : List Char}
    (hidx : ∀ p ∈ idx, ∀ x ∈ p.2, x ∈ allowed) (hch : ch ∈ allowed) :
    ∀ p ∈ indexAdd idx key ch, ∀ x ∈ p.2, x ∈ allowed := by
  intro p hp x hx
  unfold indexAdd at hp
  split at hp
  · obtain ⟨q, hq, rfl⟩ := List.mem_map.mp hp
    by_cases hqk : q.1 = key
    · rw [if_pos hqk] at hx
      rcases List.mem_append.mp hx with h | h
      · exact hidx q hq x h
      · simp at h; subst h; exact hch
    · rw [if_neg hqk] at hx
      exact hidx q hq x hx
  · rcases List.mem_append.mp hp with h | h
    · exact hidx p h x hx
    · simp at h; subst h; simp at hx; subst hx; exact hch

/-- Every character stored in the phonetic index comes from the allowed
list (the index is built only from allowed glyphs). -/
theorem build_pinyin_index_sub (B : PinyinBackend) (allowed : List Char) :
    ∀ p ∈ build_pinyin_index B allowed, ∀ x ∈ p.2, x ∈ allowed := by
  unfold build_pinyin_index
  refine foldl_preserves
    (P := fun (idx : List (Str × List Char)) => ∀ p ∈ idx, ∀ x ∈ p.2, x ∈ allowed)
    (by simp) ?_
  intro idx ch hch hidx
  refine foldl_preserves
    (P := fun (idx : List (Str × List Char)) => ∀ p ∈ idx, ∀ x ∈ p.2, x ∈ allowed)
    hidx ?_
  intro idx2 key _ hidx2
  split
  · exact hidx2
  · exact indexAdd_sub hidx2 hch

/-- A replacement found through the phonetic index is an allowed glyph;
otherwise the character is returned unchanged. -/
theorem find_replacement_mem (B : PinyinBackend) (allowed : List Char) (c : Char) :
    find_replacement B (build_pinyin_index B allowed) c ∈ allowed ∨
    find_replacement B (build_pinyin_index B allowed) c = c := by
  unfold find_replacement
  split
  · right; rfl
  · cases hf : (generate_pinyin_keys B c).findSome? (fun k =>
      match ((build_pinyin_index B allowed).find? (fun p => p.1 == k)).map
          (fun p => p.2) with
      | some (x :: _) => some x
      | _ => none) with
    | none => right; rfl
    | some x =>
      left
      obtain ⟨k, _, hk⟩ := findSome?_some hf
      revert hk
      cases hfind : (build_pinyin_index B allowed).find? (fun p => p.1 == k) with
      | none => intro hk; simp at hk
      | some p =>
        have hpmem := List.mem_of_find?_eq_some hfind
        cases hp2 : p.2 with
        | nil => intro hk; simp [hp2] at hk
        | cons y ys =>
          intro hk
          simp [hp2] at hk
          subst hk
          exact build_pinyin_index_sub B allowed p hpmem y (by rw [hp2]; simp)

/-- The degenerate phonetic backend: `pypinyin` not importable. -/
def pinyinNone : PinyinBackend := ⟨false, fun _ => [], fun _ => []⟩

/-- C7 counterexample: with an empty allowed list (the source's fallback
when the glyph file is unreadable) and no phonetic backend (the source's
fallback when `pypinyin` is missing), `normalize_text` passes `'€'` through
unchanged, yet `'€'` is neither ASCII printable, nor in the allowed list,
nor a space — refuting "every character of the result belongs to the
allowed set or is a single space". -/
theorem claim_C7_counterexample :
    normalize_text pinyinNone [] ['€'] = ['€'] ∧
    ¬ (printableAscii '€' = true ∨ '€' ∈ ([] : List Char) ∨ '€' = ' ') :=
  ⟨rfl, by decide⟩

/-- C7 amended: every character of `normalize_text`'s output is ASCII
printable, or an allowed glyph, or a single space substituted for
whitespace, or a disallowed input character passed through unchanged
because no replacement was found. -/
theorem claim_C7_amended :
    ∀ (B : PinyinBackend) (allowed : List Char) (text : Str) (d : Char),
      d ∈ normalize_text B allowed text →
      printableAscii d = true ∨ d ∈ allowed ∨ d = ' ' ∨ d ∈ text := by
  intro B allowed text d hd
  unfold normalize_text at hd
  split at hd
  · rename_i hte
    rw [hte] at hd
    simp at hd
  · obtain ⟨c, hc, rfl⟩ := List.mem_map.mp hd
    unfold normalize_char
    split
    · rename_i hb
      unfold baseAllowedB at hb
      rcases Bool.or_eq_true_iff.mp hb with h | h
      · left; exact h
      · right; left; simpa using h
    · split
      · right; right; left; rfl
      · rcases find_replacement_mem B allowed c with h | h
        · right; left; exact h
        · right; right; right; rw [h]; exact hc

/-- C7 witness: the amended statement at a concrete allowed glyph. -/
theorem claim_C7_witness :
    'あ' ∈ normalize_text pinyinNone ['あ'] ['あ'] ∧
    (printableAscii 'あ' = true ∨ 'あ' ∈ (['あ'] : List Char) ∨ 'あ' = ' ' ∨
      'あ' ∈ (['あ'] : Str)) := by
  refine ⟨by decide, ?_⟩
  exact claim_C7_amended pinyinNone ['あ'] ['あ'] 'あ' (by decide)

/-! ## C8: shutdown-aware waiting -/

/-- C8: if the shutdown flag is observed at some poll iteration (after any
number of quiet iterations), the waiting loop returns the shutdown failure
at that very iteration — regardless of anything the queue offers then or
later — and the handler surfaces it as HTTP 500 with the shutdown
message. -/
theorem claim_C8 :
    ∀ (pre rest : List (Bool × Option QueueMsg)) (q : Option QueueMsg),
      (∀ x ∈ pre, x = (false, none)) →
      wait_for_result (pre ++ (true, q) :: rest) = QueueMsg.qerr shutdownMsg ∧
      respond_result (wait_for_result (pre ++ (true, q) :: rest))
        = (500, shutdownMsg) := by
  intro pre
  induction pre with
  | nil =>
    intro rest q _
    constructor <;> rfl
  | cons x xs ih =>
    intro rest q hx
    have hx0 : x = (false, none) := hx x (by simp)
    subst hx0
    have := ih rest q (fun y hy => hx y (by simp [hy]))
    simpa [wait_for_result] using this

/-- C8 witness: one quiet iteration, then the flag flips while a queued
result is available — the shutdown error wins. -/
theorem claim_C8_witness :
    (∀ x ∈ ([(false, none)] : List (Bool × Option QueueMsg)), x = (false, none)) ∧
    wait_for_result ([(false, none)] ++
        (true, some (QueueMsg.qok [] none)) :: [(false, some (QueueMsg.qok [] none))])
      = QueueMsg.qerr shutdownMsg ∧
    respond_result (wait_for_result ([(false, none)] ++
        (true, some (QueueMsg.qok [] none)) :: [(false, some (QueueMsg.qok [] none))]))
      = (500, shutdownMsg) :=
  ⟨by simp, claim_C8 [(false, none)] [(false, some (QueueMsg.qok [] none))]
    (some (QueueMsg.qok [] none)) (by simp)⟩

end XUnity

namespace XUnity

theorem ciEq_refl (c : Char) : ciEq c c = true := beq_self_eq_true (toLowerCh c)

theorem ciStartsWith_append_self (p t : Str) : ciStartsWith p (p ++ t) = true := by
  induction p with
  | nil => rfl
  | cons c cs ih => simp [ciStartsWith, ciEq_refl, ih]

theorem toLowerCh_ne_lt {c : Char} (hc : c ≠ '<') : toLowerCh c ≠ '<' := by
  unfold toLowerCh
  split
  · rename_i h
    obtain ⟨h1, h2⟩ := h
    set n := Char.toNat c with hn
    interval_cases n <;> decide
  · exact hc

theorem ciEq_lt_false {c : Char} (hc : c ≠ '<') : ciEq '<' c = false := by
  unfold ciEq
  rw [show toLowerCh '<' = '<' from by decide]
  exact beq_eq_false_iff_ne.mpr (Ne.symm (toLowerCh_ne_lt hc))

theorem ciStartsWith_lt_head_false {ps : Str} {c : Char} {cs : Str} (hc : c ≠ '<') :
    ciStartsWith ('<' :: ps) (c :: cs) = false := by
  simp [ciStartsWith, ciEq_lt_false hc]

theorem ciContains_nil_false {p0 : Char} {ps : Str} :
    ciContains (p0 :: ps) [] = false := rfl

theorem ciContains_append_nolt (ps : Str) {u : Str} (v : Str) (hu : '<' ∉ u) :
    ciContains ('<' :: ps) (u ++ v) = ciContains ('<' :: ps) v := by
  induction u with
  | nil => rfl
  | cons c cs ih =>
    have hc : c ≠ '<' := fun h => hu (h ▸ List.mem_cons_self _ _)
    have hcs : '<' ∉ cs := fun h => hu (List.mem_cons_of_mem _ h)
    simp only [List.cons_append, ciContains, ciStartsWith_lt_head_false hc,
      Bool.false_or]
    exact ih hcs

theorem ciContains_nolt (ps : Str) {u : Str} (hu : '<' ∉ u) :
    ciContains ('<' :: ps) u = false := by
  have := ciContains_append_nolt ps [] hu
  rwa [List.append_nil, ciContains_nil_false] at this

theorem subLazy_id_of_not_contains {o : Char} {openR closeT s : Str}
    (h : ciContains (o :: openR) s = false) : subLazy o openR closeT s = s := by
  induction s with
  | nil => rfl
  | cons c cs ih =>
    simp only [ciContains, Bool.or_eq_false_iff] at h
    rw [subLazy_cons, if_neg (by simp [h.1])]
    rw [ih h.2]

theorem subOpenRun_id_of_not_contains {s : Str}
    (h1 : ciContains thinkingOpen s = false)
    (h2 : ciContains thinkOpen s = false) : subOpenRun s = s := by
  induction s with
  | nil => rfl
  | cons c cs ih =>
    rw [show thinkingOpen = '<' :: thinkingOpenR from rfl] at h1
    rw [show thinkOpen = '<' :: thinkOpenR from rfl] at h2
    simp only [ciContains, Bool.or_eq_false_iff] at h1 h2
    rw [subOpenRun_cons,
      if_neg (by simp [show ciStartsWith thinkingOpen (c :: cs) = false from h1.1]),
      if_neg (by simp [show ciStartsWith thinkOpen (c :: cs) = false from h2.1])]
    rw [ih h1.2 h2.2]

end XUnity

namespace XUnity

end XUnity

namespace XUnity

theorem dropAfterFirst_self (p0 : Char) (prest t : Str) :
    dropAfterFirst (p0 :: prest) ((p0 :: prest) ++ t) = some t := by
  rw [List.cons_append]
  simp only [dropAfterFirst]
  rw [if_pos (by rw [← List.cons_append]; exact ciStartsWith_append_self _ _)]
  congr 1
  rw [← List.cons_append]
  exact List.drop_left _ _

theorem dropAfterFirst_nolt {s : Str} (hs : '<' ∉ s) (t : Str) :
    dropAfterFirst thinkClose (s ++ (thinkClose ++ t)) = some t := by
  induction s with
  | nil =>
    rw [List.nil_append, show thinkClose = '<' :: ['/','t','h','i','n','k','>'] from rfl]
    exact dropAfterFirst_self _ _ _
  | cons c cs ih =>
    have hc : c ≠ '<' := fun h => hs (h ▸ List.mem_cons_self _ _)
    have hcs : '<' ∉ cs := fun h => hs (List.mem_cons_of_mem _ h)
    rw [List.cons_append]
    simp only [dropAfterFirst]
    rw [if_neg (by rw [show thinkClose = '<' :: ['/','t','h','i','n','k','>'] from rfl,
      ciStartsWith_lt_head_false hc]; simp)]
    exact ih hcs

theorem ciContains_thinkingOpen_span {s t : Str} (hs : '<' ∉ s) (ht : '<' ∉ t) :
    ciContains thinkingOpen (thinkOpen ++ (s ++ (thinkClose ++ t))) = false := by
  have h1 : ∀ r : Str,
      ciStartsWith thinkingOpen ('<' :: 't' :: 'h' :: 'i' :: 'n' :: 'k' :: '>' ::r) = false := by
    intro r
    simp [ciStartsWith, thinkingOpen, thinkingOpenR, ciEq, toLowerCh]
  have h2 : ∀ r : Str,
      ciStartsWith thinkingOpen ('<' :: '/' :: 't' :: 'h' :: 'i' :: 'n' :: 'k' :: '>' ::r) = false := by
    intro r
    simp [ciStartsWith, thinkingOpen, thinkingOpenR, ciEq, toLowerCh]
  have hhd : ∀ (c : Char) (r : Str), c ≠ '<' →
      ciStartsWith thinkingOpen (c :: r) = false := fun c r hc =>
    ciStartsWith_lt_head_false hc
  have happ : ∀ (u v : Str), '<' ∉ u →
      ciContains thinkingOpen (u ++ v) = ciContains thinkingOpen v :=
    fun u v hu => ciContains_append_nolt thinkingOpenR v hu
  have hnolt : ciContains thinkingOpen t = false := ciContains_nolt thinkingOpenR ht
  show ciContains thinkingOpen
    ('<' :: 't' :: 'h' :: 'i' :: 'n' :: 'k' :: '>' ::(s ++ (thinkClose ++ t))) = false
  simp only [ciContains, h1, hhd _ _ (by decide : ('t' : Char) ≠ '<'),
    hhd _ _ (by decide : ('h' : Char) ≠ '<'), hhd _ _ (by decide : ('i' : Char) ≠ '<'),
    hhd _ _ (by decide : ('n' : Char) ≠ '<'), hhd _ _ (by decide : ('k' : Char) ≠ '<'),
    hhd _ _ (by decide : ('>' : Char) ≠ '<'), Bool.false_or]
  rw [happ s _ hs]
  show ciContains thinkingOpen ('<' :: '/' :: 't' :: 'h' :: 'i' :: 'n' :: 'k' :: '>' ::t) = false
  simp only [ciContains, h2, hhd _ _ (by decide : ('/' : Char) ≠ '<'),
    hhd _ _ (by decide : ('t' : Char) ≠ '<'), hhd _ _ (by decide : ('h' : Char) ≠ '<'),
    hhd _ _ (by decide : ('i' : Char) ≠ '<'), hhd _ _ (by decide : ('n' : Char) ≠ '<'),
    hhd _ _ (by decide : ('k' : Char) ≠ '<'), hhd _ _ (by decide : ('>' : Char) ≠ '<'),
    Bool.false_or]
  exact hnolt

end XUnity

namespace XUnity

theorem subLazy_think_span {s t : Str} (hs : '<' ∉ s) (ht : '<' ∉ t) :
    subLazy '<' thinkOpenR thinkClose (thinkOpen ++ (s ++ (thinkClose ++ t))) = t := by
  show subLazy '<' thinkOpenR thinkClose
    ('<' :: (thinkOpenR ++ (s ++ (thinkClose ++ t)))) = t
  rw [subLazy_cons]
  rw [if_pos (show ciStartsWith ('<' :: thinkOpenR)
    ('<' :: (thinkOpenR ++ (s ++ (thinkClose ++ t)))) = true from
    ciStartsWith_append_self ('<' :: thinkOpenR) _)]
  rw [List.drop_left, dropAfterFirst_nolt hs t]
  exact subLazy_id_of_not_contains (ciContains_nolt thinkOpenR ht)

theorem sanitizeStages_nolt {t : Str} (ht : '<' ∉ t) :
    sanitizeStages t = pyStrip (collapseBlank t) := by
  unfold sanitizeStages
  rw [subLazy_id_of_not_contains (ciContains_nolt thinkingOpenR ht),
    subLazy_id_of_not_contains (ciContains_nolt thinkOpenR ht),
    subOpenRun_id_of_not_contains (ciContains_nolt thinkingOpenR ht)
      (ciContains_nolt thinkOpenR ht)]

theorem sanitizeStages_think_span {s t : Str} (hs : '<' ∉ s) (ht : '<' ∉ t) :
    sanitizeStages (thinkOpen ++ (s ++ (thinkClose ++ t))) = pyStrip (collapseBlank t) := by
  unfold sanitizeStages
  rw [subLazy_id_of_not_contains (ciContains_thinkingOpen_span hs ht)]
  rw [subLazy_think_span hs ht]
  rw [subOpenRun_id_of_not_contains (ciContains_nolt thinkingOpenR ht)
    (ciContains_nolt thinkOpenR ht)]

theorem sanitizeChat_think_span {s t : Str} (hs : '<' ∉ s) (ht : '<' ∉ t) :
    sanitizeChat (thinkOpen ++ (s ++ (thinkClose ++ t))) = sanitizeChat t := by
  unfold sanitizeChat
  rw [if_neg (show ¬ (thinkOpen ++ (s ++ (thinkClose ++ t)) = []) from by
    simp [thinkOpen])]
  by_cases hte : t = []
  · subst hte
    rw [if_pos rfl, sanitizeStages_think_span hs ht]
    rfl
  · rw [if_neg hte, sanitizeStages_think_span hs ht, sanitizeStages_nolt ht]

end XUnity

namespace XUnity

theorem sanitizeChat_trunc {x : Str} (hne : x ≠ [])
    (hlong : 10000 < (sanitizeStages x).length) :
    sanitizeChat x = (sanitizeStages x).take 10000 ++ truncMarker := by
  unfold sanitizeChat
  rw [if_neg hne, if_pos hlong]

theorem dropWhile_all_false {p : Char → Bool} {s : Str}
    (h : ∀ c ∈ s, p c = false) : s.dropWhile p = s := by
  cases s with
  | nil => rfl
  | cons c cs => rw [List.dropWhile_cons_of_neg (by simp [h c (by simp)])]

theorem pyStrip_all_nonws {s : Str} (h : ∀ c ∈ s, isPySpace c = false) :
    pyStrip s = s := by
  unfold pyStrip
  rw [dropWhile_all_false h,
    dropWhile_all_false (fun c hc => h c (List.mem_reverse.mp hc)),
    List.reverse_reverse]

theorem collapseBlank_no_nl {s : Str} (h : ∀ c ∈ s, c ≠ '\n') :
    collapseBlank s = s := by
  induction s with
  | nil => rfl
  | cons c cs ih =>
    rw [collapseBlank_cons, if_neg (fun hcc => h c (by simp) hcc.1),
      ih (fun d hd => h d (by simp [hd]))]

def bigA : Str := List.replicate 10001 'a'

theorem sanitizeStages_bigA : sanitizeStages bigA = bigA := by
  have hlt : '<' ∉ bigA := by
    intro h
    have := List.eq_of_mem_replicate h
    simp at this
  rw [sanitizeStages_nolt hlt,
    collapseBlank_no_nl (fun c hc => by
      have := List.eq_of_mem_replicate hc
      subst this
      decide),
    pyStrip_all_nonws (fun c hc => by
      have := List.eq_of_mem_replicate hc
      subst this
      decide)]

/-- C6: `_sanitize_chat_response` removes reasoning-markup spans
case-insensitively (concrete instances: the spec's example, a mixed-case
multi-line span, an unterminated opening-only tag, and the general removal
of a well-formed `<think>…</think>` span over bracket-free content),
collapses blank-line runs to a single blank line, trims surrounding
whitespace, and truncates any cleaned text longer than 10,000 characters to
10,000 characters plus the fixed marker. -/
theorem claim_C6 :
    sanitizeChat ("<think>ignore me</think>Hello".toList) = "Hello".toList ∧
    sanitizeChat ("<THINK>a\nb</ThInK>Hi".toList) = "Hi".toList ∧
    sanitizeChat ("Hello<think>rest anything".toList) = "Hello".toList ∧
    (∀ s t : Str, '<' ∉ s → '<' ∉ t →
      sanitizeChat (thinkOpen ++ (s ++ (thinkClose ++ t))) = sanitizeChat t) ∧
    sanitizeChat ("a\n\n\n\nb".toList) = "a\n\nb".toList ∧
    sanitizeChat ("  hi  ".toList) = "hi".toList ∧
    (∀ x : Str, x ≠ [] → 10000 < (sanitizeStages x).length →
      sanitizeChat x = (sanitizeStages x).take 10000 ++ truncMarker) := by
  refine ⟨by decide, by decide, by decide, ?_, by decide, by decide, ?_⟩
  · exact fun s t hs ht => sanitizeChat_think_span hs ht
  · exact fun x hne hlong => sanitizeChat_trunc hne hlong

/-- C6 witness: the span-removal part at concrete bracket-free strings and
the truncation part at a 10,001-character input. -/
theorem claim_C6_witness :
    ('<' ∉ ("abc".toList : Str) ∧ '<' ∉ ("Out".toList : Str) ∧
      sanitizeChat (thinkOpen ++ ("abc".toList ++ (thinkClose ++ "Out".toList)))
        = sanitizeChat ("Out".toList)) ∧
    (bigA ≠ [] ∧ 10000 < (sanitizeStages bigA).length ∧
      sanitizeChat bigA = (sanitizeStages bigA).take 10000 ++ truncMarker) := by
  refine ⟨⟨by decide, by decide,
    claim_C6.2.2.2.1 ("abc".toList) ("Out".toList) (by decide) (by decide)⟩, ?_⟩
  have hlenA : bigA.length = 10001 := by
    unfold bigA
    exact List.length_replicate _ _
  have hne : bigA ≠ [] := fun h => by rw [h] at hlenA; simp at hlenA
  have hlen : 10000 < (sanitizeStages bigA).length := by
    rw [sanitizeStages_bigA, hlenA]
    omega
  exact ⟨hne, hlen, claim_C6.2.2.2.2.2.2 bigA hne hlen⟩

end XUnity

namespace XUnity

/-- The whitespace run following a newline is harmless for the blank-line
substitution: it either contains no further newline, or the run starts with
the newline of an exact `"\n\n"` pair and has no other newline (such a match
rewrites to itself). -/
def goodAfterNl (cs : Str) : Bool :=
  match cs.takeWhile isPySpace with
  | '\n' :: w' => !(w'.contains '\n')
  | w => !(w.contains '\n')

/-- `collapseBlank` is the identity exactly on strings whose every newline
is followed by a harmless whitespace run. -/
def isCollapsed : Str → Bool
  | [] => true
  | c :: cs => (if c = '\n' then goodAfterNl cs else true) && isCollapsed cs

theorem contains_eq_false_iff {l : Str} {c : Char} :
    l.contains c = false ↔ c ∉ l := by
  simp [List.contains]

theorem takeWhile_append_all {p : Char → Bool} {a : Str} (b : Str)
    (h : ∀ c ∈ a, p c = true) :
    (a ++ b).takeWhile p = a ++ b.takeWhile p := by
  induction a with
  | nil => rfl
  | cons c cs ih =>
    rw [List.cons_append, List.takeWhile_cons_of_pos (h c (by simp)),
      ih (fun d hd => h d (by simp [hd])), List.cons_append]

theorem takeWhile_head_false {p : Char → Bool} {s : Str}
    (h : match s with | [] => True | c :: _ => p c = false) :
    s.takeWhile p = [] := by
  cases s with
  | nil => rfl
  | cons c cs => exact List.takeWhile_cons_of_neg (by simp [h])

theorem dropWhile_head_false (p : Char → Bool) (s : Str) :
    match s.dropWhile p with | [] => True | c :: _ => p c = false := by
  induction s with
  | nil => trivial
  | cons c cs ih =>
    by_cases h : p c
    · rw [List.dropWhile_cons_of_pos h]; exact ih
    · rw [List.dropWhile_cons_of_neg h]
      exact Bool.eq_false_iff.mpr h

theorem afterLastNl_cons_nl {w' : Str} (h : '\n' ∉ w') :
    afterLastNl ('\n' :: w') = w' := by
  unfold afterLastNl
  rw [List.reverse_cons, takeWhile_append_all ['\n']
    (fun c hc => by
      simp only [bne_iff_ne, ne_eq]
      exact fun he => h (he ▸ List.mem_reverse.mp hc)),
    takeWhile_head_false (by simp), List.append_nil, List.reverse_reverse]

theorem afterLastNl_no_nl {w : Str} : '\n' ∉ afterLastNl w := by
  intro hmem
  unfold afterLastNl at hmem
  rw [List.mem_reverse] at hmem
  have := List.mem_takeWhile_imp hmem
  simp at this

end XUnity

namespace XUnity

/-- Head-of-string is not whitespace (vacuous for the empty string). -/
def HeadNonWs : Str → Prop
  | [] => True
  | c :: _ => isPySpace c = false

def LastNonWs (s : Str) : Prop := HeadNonWs s.reverse

theorem headNonWs_collapse {d : Str} (hd : HeadNonWs d) :
    HeadNonWs (collapseBlank d) := by
  cases d with
  | nil => trivial
  | cons c cs =>
    have hc : c ≠ '\n' := fun h => by
      rw [h] at hd
      exact absurd hd (by simp [HeadNonWs, isPySpace])
    rw [collapseBlank_cons, if_neg (fun hcc => hc hcc.1)]
    exact hd

theorem collapseBlank_append_no_nl {a : Str} (b : Str) (ha : ∀ x ∈ a, x ≠ '\n') :
    collapseBlank (a ++ b) = a ++ collapseBlank b := by
  induction a with
  | nil => rfl
  | cons x a' ih =>
    rw [List.cons_append, collapseBlank_cons,
      if_neg (fun hcc => ha x (by simp) hcc.1),
      ih (fun d hd => ha d (by simp [hd])), List.cons_append]

theorem afterLastNl_sub {w : Str} : ∀ c ∈ afterLastNl w, c ∈ w := by
  intro c hc
  unfold afterLastNl at hc
  rw [List.mem_reverse] at hc
  exact List.mem_reverse.mp (List.takeWhile_subset _ hc)

theorem takeWhile_ws_run {w' : Str} (d : Str)
    (hw : ∀ x ∈ w', isPySpace x = true) (hd : HeadNonWs d) :
    (w' ++ d).takeWhile isPySpace = w' := by
  rw [takeWhile_append_all d hw, takeWhile_head_false (by cases d <;> simpa [HeadNonWs] using hd),
    List.append_nil]

theorem goodAfterNl_of_no_nl {cs : Str} (h : '\n' ∉ cs.takeWhile isPySpace) :
    goodAfterNl cs = true := by
  unfold goodAfterNl
  split
  · rename_i w' heq
    rw [heq] at h
    simp at h
  · rw [Bool.not_eq_eq_eq_not, Bool.not_true, contains_eq_false_iff]
    exact h

theorem goodAfterNl_of_run {cs w' : Str} (heq : cs.takeWhile isPySpace = '\n' :: w')
    (h : '\n' ∉ w') : goodAfterNl cs = true := by
  unfold goodAfterNl
  split
  · rename_i w2 heq2
    rw [heq] at heq2
    cases heq2
    rw [Bool.not_eq_eq_eq_not, Bool.not_true, contains_eq_false_iff]
    exact h
  · rename_i hno
    exact absurd heq (hno w')

theorem goodAfterNl_nl_shape {cs : Str} (hg : goodAfterNl cs = true)
    (hw : '\n' ∈ cs.takeWhile isPySpace) :
    ∃ w', cs.takeWhile isPySpace = '\n' :: w' ∧ '\n' ∉ w' := by
  revert hg
  unfold goodAfterNl
  split
  · rename_i w' heq
    intro hg
    rw [Bool.not_eq_eq_eq_not, Bool.not_true, contains_eq_false_iff] at hg
    exact ⟨w', heq, hg⟩
  · intro hg
    rw [Bool.not_eq_eq_eq_not, Bool.not_true, contains_eq_false_iff] at hg
    exact absurd hw hg

end XUnity

namespace XUnity

theorem collapseBlank_isCollapsed : ∀ (n : Nat) (s : Str), s.length ≤ n →
    isCollapsed (collapseBlank s) = true := by
  intro n
  induction n with
  | zero =>
    intro s h
    have hs : s = [] := List.length_eq_zero.mp (Nat.le_zero.mp h)
    subst hs
    rfl
  | succ k ih =>
    intro s hlen
    match s with
    | [] => rfl
    | c :: cs =>
      have hcs : cs.length ≤ k := by simp at hlen; omega
      have hwall : ∀ x ∈ cs.takeWhile isPySpace, isPySpace x = true :=
        fun x hx => List.mem_takeWhile_imp hx
      have hdhead : HeadNonWs (cs.dropWhile isPySpace) := by
        have hh := dropWhile_head_false isPySpace cs
        cases hd : cs.dropWhile isPySpace with
        | nil => trivial
        | cons d0 d1 => rw [hd] at hh; exact hh
      rw [collapseBlank_cons]
      split
      · rename_i hcc
        obtain ⟨hc, hw⟩ := hcc
        have hw'nl : '\n' ∉ afterLastNl (cs.takeWhile isPySpace) := afterLastNl_no_nl
        have hw'ws : ∀ x ∈ afterLastNl (cs.takeWhile isPySpace), isPySpace x = true :=
          fun x hx => hwall x (afterLastNl_sub x hx)
        have hw'nonl : ∀ x ∈ afterLastNl (cs.takeWhile isPySpace), x ≠ '\n' :=
          fun x hx he => hw'nl (he ▸ hx)
        have hYdecomp : collapseBlank (afterLastNl (cs.takeWhile isPySpace) ++ cs.dropWhile isPySpace)
            = afterLastNl (cs.takeWhile isPySpace) ++ collapseBlank (cs.dropWhile isPySpace) :=
          collapseBlank_append_no_nl _ hw'nonl
        have hYrun : (collapseBlank (afterLastNl (cs.takeWhile isPySpace) ++ cs.dropWhile isPySpace)).takeWhile isPySpace
            = afterLastNl (cs.takeWhile isPySpace) := by
          rw [hYdecomp]
          exact takeWhile_ws_run _ hw'ws (headNonWs_collapse hdhead)
        have hlen2 : (afterLastNl (cs.takeWhile isPySpace) ++ cs.dropWhile isPySpace).length ≤ k := by
          have h1 : (afterLastNl (cs.takeWhile isPySpace)).length <
              (cs.takeWhile isPySpace).length := afterLastNl_length_lt hw
          have h2 : (cs.takeWhile isPySpace).length + (cs.dropWhile isPySpace).length
              = cs.length := by
            conv_rhs => rw [← List.takeWhile_append_dropWhile (p := isPySpace) (l := cs)]
            rw [List.length_append]
          rw [List.length_append]
          omega
        have hY : isCollapsed (collapseBlank
            (afterLastNl (cs.takeWhile isPySpace) ++ cs.dropWhile isPySpace)) = true :=
          ih _ hlen2
        simp only [isCollapsed, Bool.and_eq_true, if_pos rfl]
        refine ⟨?_, ?_, hY⟩
        · exact goodAfterNl_of_run
            (by rw [List.takeWhile_cons_of_pos (show isPySpace '\n' = true from by decide),
              hYrun]) hw'nl
        · exact goodAfterNl_of_no_nl (by rw [hYrun]; exact hw'nl)
      · rename_i hcc
        simp only [isCollapsed, Bool.and_eq_true]
        refine ⟨?_, ih cs hcs⟩
        split
        · rename_i hceq
          have hnw : '\n' ∉ cs.takeWhile isPySpace := fun hmem => hcc ⟨hceq, hmem⟩
          have hsplit : collapseBlank cs = (cs.takeWhile isPySpace)
              ++ collapseBlank (cs.dropWhile isPySpace) := by
            conv_lhs => rw [← List.takeWhile_append_dropWhile (p := isPySpace) (l := cs)]
            exact collapseBlank_append_no_nl _ (fun x hx he => hnw (he ▸ hx))
          apply goodAfterNl_of_no_nl
          rw [hsplit, takeWhile_ws_run _ hwall (headNonWs_collapse hdhead)]
          exact hnw
        · trivial

theorem collapseBlank_id_of_isCollapsed : ∀ (n : Nat) (s : Str), s.length ≤ n →
    isCollapsed s = true → collapseBlank s = s := by
  intro n
  induction n with
  | zero =>
    intro s h _
    have hs : s = [] := List.length_eq_zero.mp (Nat.le_zero.mp h)
    subst hs
    rfl
  | succ k ih =>
    intro s hlen hcol
    match s with
    | [] => rfl
    | c :: cs =>
      have hcs : cs.length ≤ k := by simp at hlen; omega
      simp only [isCollapsed, Bool.and_eq_true] at hcol
      rw [collapseBlank_cons]
      split
      · rename_i hcc
        obtain ⟨hc, hw⟩ := hcc
        subst hc
        have hg : goodAfterNl cs = true := by
          have hx := hcol.1
          rwa [if_pos rfl] at hx
        obtain ⟨w', heq, hw'⟩ := goodAfterNl_nl_shape hg hw
        rw [heq, afterLastNl_cons_nl hw']
        have hcseq : cs = '\n' :: (w' ++ cs.dropWhile isPySpace) := by
          conv_lhs => rw [← List.takeWhile_append_dropWhile (p := isPySpace) (l := cs)]
          rw [heq, List.cons_append]
        have htl : isCollapsed (w' ++ cs.dropWhile isPySpace) = true := by
          have hx := hcol.2
          rw [hcseq] at hx
          simp only [isCollapsed, Bool.and_eq_true] at hx
          exact hx.2
        have hlen2 : (w' ++ cs.dropWhile isPySpace).length ≤ k := by
          have hx : ('\n' :: (w' ++ cs.dropWhile isPySpace)).length = cs.length := by
            rw [← hcseq]
          simp only [List.length_cons] at hx
          omega
        rw [ih _ hlen2 htl]
        conv_rhs => rw [hcseq]
      · congr 1
        exact ih cs hcs hcol.2

end XUnity

namespace XUnity

theorem isCollapsed_append_right {a b : Str} (h : isCollapsed (a ++ b) = true) :
    isCollapsed b = true := by
  induction a with
  | nil => exact h
  | cons x a' ih =>
    rw [List.cons_append] at h
    simp only [isCollapsed, Bool.and_eq_true] at h
    exact ih h.2

theorem takeWhile_append_sub (p : Char → Bool) (u v : Str) :
    ∃ t2, (u ++ v).takeWhile p = u.takeWhile p ++ t2 := by
  induction u with
  | nil => exact ⟨v.takeWhile p, rfl⟩
  | cons c u' ih =>
    by_cases hc : p c
    · obtain ⟨t2, ht⟩ := ih
      exact ⟨t2, by
        rw [List.cons_append, List.takeWhile_cons_of_pos hc, ht,
          List.takeWhile_cons_of_pos hc, List.cons_append]⟩
    · exact ⟨[], by
        rw [List.cons_append, List.takeWhile_cons_of_neg hc,
          List.takeWhile_cons_of_neg hc, List.append_nil]⟩

theorem goodAfterNl_iff {cs : Str} : goodAfterNl cs = true ↔
    ('\n' ∉ cs.takeWhile isPySpace ∨
      ∃ w', cs.takeWhile isPySpace = '\n' :: w' ∧ '\n' ∉ w') := by
  constructor
  · intro hg
    by_cases hw : '\n' ∈ cs.takeWhile isPySpace
    · exact Or.inr (goodAfterNl_nl_shape hg hw)
    · exact Or.inl hw
  · rintro (h | ⟨w', heq, hw'⟩)
    · exact goodAfterNl_of_no_nl h
    · exact goodAfterNl_of_run heq hw'

theorem goodAfterNl_mono {a b : Str} (h : goodAfterNl (a ++ b) = true) :
    goodAfterNl a = true := by
  obtain ⟨t2, ht⟩ := takeWhile_append_sub isPySpace a b
  rcases goodAfterNl_iff.mp h with hno | ⟨w', heq, hw'⟩
  · exact goodAfterNl_iff.mpr (Or.inl (fun hmem => hno (ht ▸ List.mem_append_left t2 hmem)))
  · rw [ht] at heq
    cases hsm : a.takeWhile isPySpace with
    | nil => exact goodAfterNl_iff.mpr (Or.inl (by rw [hsm]; simp))
    | cons c rest =>
      rw [hsm, List.cons_append] at heq
      cases heq
      refine goodAfterNl_iff.mpr (Or.inr ⟨rest, hsm, fun hmem => hw' ?_⟩)
      exact List.mem_append_left t2 hmem

theorem isCollapsed_append_left {a b : Str} (h : isCollapsed (a ++ b) = true) :
    isCollapsed a = true := by
  induction a with
  | nil => rfl
  | cons x a' ih =>
    rw [List.cons_append] at h
    simp only [isCollapsed, Bool.and_eq_true] at h ⊢
    refine ⟨?_, ih h.2⟩
    rcases h with ⟨h1, _⟩
    split
    · rename_i hx
      rw [if_pos hx] at h1
      exact goodAfterNl_mono h1
    · trivial

theorem takeWhile_append_of_ne {p : Char → Bool} {u : Str} (v : Str)
    (h : u.takeWhile p ≠ u) : (u ++ v).takeWhile p = u.takeWhile p := by
  induction u with
  | nil => exact absurd rfl h
  | cons c u' ih =>
    by_cases hc : p c
    · rw [List.cons_append, List.takeWhile_cons_of_pos hc,
        List.takeWhile_cons_of_pos hc]
      rw [List.takeWhile_cons_of_pos hc] at h
      have : u'.takeWhile p ≠ u' := fun he => h (by rw [he])
      rw [ih this]
    · rw [List.cons_append, List.takeWhile_cons_of_neg hc,
        List.takeWhile_cons_of_neg hc]

theorem run_append_headNonWs {a : Str} (m : Str) (hm : HeadNonWs m) :
    (a ++ m).takeWhile isPySpace = a.takeWhile isPySpace := by
  by_cases ha : a.takeWhile isPySpace = a
  · rw [takeWhile_append_all m (fun c hc => by
      have := List.mem_takeWhile_imp (ha ▸ hc)
      exact this), ha,
      takeWhile_head_false (by cases m <;> simpa [HeadNonWs] using hm),
      List.append_nil]
  · exact takeWhile_append_of_ne m ha

theorem goodAfterNl_congr {c1 c2 : Str}
    (h : c1.takeWhile isPySpace = c2.takeWhile isPySpace) :
    goodAfterNl c1 = goodAfterNl c2 := by
  unfold goodAfterNl
  rw [h]

theorem isCollapsed_append_headNonWs {a m : Str} (ha : isCollapsed a = true)
    (hm : isCollapsed m = true) (hh : HeadNonWs m) :
    isCollapsed (a ++ m) = true := by
  induction a with
  | nil => exact hm
  | cons x a' ih =>
    rw [List.cons_append]
    simp only [isCollapsed, Bool.and_eq_true] at ha ⊢
    refine ⟨?_, ih ha.2⟩
    rcases ha with ⟨h1, _⟩
    split
    · rename_i hx
      rw [if_pos hx] at h1
      rw [goodAfterNl_congr (run_append_headNonWs m hh)]
      exact h1
    · trivial

end XUnity

namespace XUnity

theorem headNonWs_dropWhile (x : Str) : HeadNonWs (x.dropWhile isPySpace) := by
  have hh := dropWhile_head_false isPySpace x
  cases hd : x.dropWhile isPySpace with
  | nil => trivial
  | cons c r => rw [hd] at hh; exact hh

theorem dropWhile_eq_pyStrip_append (s : Str) :
    s.dropWhile isPySpace
      = pyStrip s ++ ((s.dropWhile isPySpace).reverse.takeWhile isPySpace).reverse := by
  conv_lhs => rw [← List.reverse_reverse (s.dropWhile isPySpace)]
  conv_lhs =>
    rw [show (s.dropWhile isPySpace).reverse
        = ((s.dropWhile isPySpace).reverse.takeWhile isPySpace)
          ++ ((s.dropWhile isPySpace).reverse.dropWhile isPySpace) from
      (List.takeWhile_append_dropWhile _ _).symm]
  rw [List.reverse_append]
  rfl

theorem pyStrip_decomp (s : Str) : ∃ a b, s = a ++ (pyStrip s ++ b) := by
  refine ⟨s.takeWhile isPySpace,
    ((s.dropWhile isPySpace).reverse.takeWhile isPySpace).reverse, ?_⟩
  conv_lhs => rw [← List.takeWhile_append_dropWhile (p := isPySpace) (l := s)]
  rw [← dropWhile_eq_pyStrip_append]

theorem isCollapsed_pyStrip {s : Str} (h : isCollapsed s = true) :
    isCollapsed (pyStrip s) = true := by
  obtain ⟨a, b, hd⟩ := pyStrip_decomp s
  rw [hd] at h
  exact isCollapsed_append_left (isCollapsed_append_right h)

theorem headNonWs_pyStrip (s : Str) : HeadNonWs (pyStrip s) := by
  have hl := headNonWs_dropWhile s
  have hdec := dropWhile_eq_pyStrip_append s
  cases hps : pyStrip s with
  | nil => trivial
  | cons c r =>
    rw [hps, List.cons_append] at hdec
    rw [hdec] at hl
    exact hl

theorem lastNonWs_pyStrip (s : Str) : LastNonWs (pyStrip s) := by
  unfold LastNonWs pyStrip
  rw [List.reverse_reverse]
  exact headNonWs_dropWhile _

theorem dropWhile_id_of_head {s : Str} (h : HeadNonWs s) :
    s.dropWhile isPySpace = s := by
  cases s with
  | nil => rfl
  | cons c r => exact List.dropWhile_cons_of_neg (by simp [show isPySpace c = false from h])

theorem pyStrip_id {s : Str} (h1 : HeadNonWs s) (h2 : LastNonWs s) :
    pyStrip s = s := by
  unfold pyStrip
  rw [dropWhile_id_of_head h1, dropWhile_id_of_head h2, List.reverse_reverse]

theorem headNonWs_take (n : Nat) {a : Str} (h : HeadNonWs a) :
    HeadNonWs (a.take n) := by
  cases a with
  | nil => rw [List.take_nil]; trivial
  | cons c r =>
    cases n with
    | zero => trivial
    | succ m => rw [List.take_succ_cons]; exact h

theorem headNonWs_append {a m : Str} (ha : HeadNonWs a) (hm : HeadNonWs m) :
    HeadNonWs (a ++ m) := by
  cases a with
  | nil => exact hm
  | cons c r => exact ha

theorem lastNonWs_append {a m : Str} (hm : LastNonWs m) (hne : m ≠ []) :
    LastNonWs (a ++ m) := by
  unfold LastNonWs at hm ⊢
  rw [List.reverse_append]
  cases hr : m.reverse with
  | nil => exact absurd (by simpa using congrArg List.reverse hr) hne
  | cons c r =>
    rw [hr] at hm
    rw [List.cons_append]
    exact hm

theorem isCollapsed_take (n : Nat) {a : Str} (h : isCollapsed a = true) :
    isCollapsed (a.take n) = true := by
  have : a = a.take n ++ a.drop n := (List.take_append_drop n a).symm
  rw [this] at h
  exact isCollapsed_append_left h

end XUnity

namespace XUnity

theorem isCollapsed_sanitizeStages (x : Str) :
    isCollapsed (sanitizeStages x) = true :=
  isCollapsed_pyStrip (collapseBlank_isCollapsed _ _ (Nat.le_refl _))

theorem sanitizeChat_shape (x : Str) (hx : x ≠ []) :
    sanitizeChat x = if 10000 < (sanitizeStages x).length
      then (sanitizeStages x).take 10000 ++ truncMarker else sanitizeStages x := by
  unfold sanitizeChat
  rw [if_neg hx]

theorem sanitizeStages_id_of (y : Str)
    (h1 : ciContains thinkOpen y = false)
    (h2 : ciContains thinkingOpen y = false)
    (hcol : isCollapsed y = true) (hh : HeadNonWs y) (hl : LastNonWs y) :
    sanitizeStages y = y := by
  unfold sanitizeStages
  rw [subLazy_id_of_not_contains h2, subLazy_id_of_not_contains h1,
    subOpenRun_id_of_not_contains h2 h1,
    collapseBlank_id_of_isCollapsed y.length y (Nat.le_refl _) hcol,
    pyStrip_id hh hl]

theorem truncMarker_isCollapsed : isCollapsed truncMarker = true := by decide

theorem truncMarker_headNonWs : HeadNonWs truncMarker := by
  show isPySpace '.' = false
  decide

theorem truncMarker_lastNonWs : LastNonWs truncMarker := by
  show HeadNonWs truncMarker.reverse
  rw [show truncMarker.reverse = ')' :: ("断截已长过容内(...".toList) from by decide]
  show isPySpace ')' = false
  decide

theorem truncMarker_ne_nil : truncMarker ≠ [] := by decide

/-- C9 amended: sanitisation is idempotent on every input whose sanitised
output contains no case-insensitive occurrence of `<think>` or
`<thinking>`; it is not idempotent in general (see the counterexample),
because removing a span can splice surrounding text into a fresh tag that
only the second pass removes. -/
theorem claim_C9_amended :
    ∀ x : Str, ciContains thinkOpen (sanitizeChat x) = false →
      ciContains thinkingOpen (sanitizeChat x) = false →
      sanitizeChat (sanitizeChat x) = sanitizeChat x := by
  intro x h1 h2
  by_cases hx : x = []
  · subst hx; rfl
  · have hshape := sanitizeChat_shape x hx
    have hcolS : isCollapsed (sanitizeStages x) = true := isCollapsed_sanitizeStages x
    have hhS : HeadNonWs (sanitizeStages x) := headNonWs_pyStrip _
    have hlS : LastNonWs (sanitizeStages x) := lastNonWs_pyStrip _
    by_cases hlong : 10000 < (sanitizeStages x).length
    · rw [if_pos hlong] at hshape
      have htake_len : ((sanitizeStages x).take 10000).length = 10000 := by
        rw [List.length_take]
        omega
      have hylen : (sanitizeChat x).length = 10012 := by
        rw [hshape, List.length_append, htake_len,
          show truncMarker.length = 12 from rfl]
      have hyne : sanitizeChat x ≠ [] := by
        intro he
        rw [he] at hylen
        simp at hylen
      have hycol : isCollapsed (sanitizeChat x) = true := by
        rw [hshape]
        exact isCollapsed_append_headNonWs (isCollapsed_take _ hcolS)
          truncMarker_isCollapsed truncMarker_headNonWs
      have hyh : HeadNonWs (sanitizeChat x) := by
        rw [hshape]
        exact headNonWs_append (headNonWs_take _ hhS) truncMarker_headNonWs
      have hyl : LastNonWs (sanitizeChat x) := by
        rw [hshape]
        exact lastNonWs_append truncMarker_lastNonWs truncMarker_ne_nil
      rw [sanitizeChat_shape (sanitizeChat x) hyne,
        sanitizeStages_id_of _ h1 h2 hycol hyh hyl,
        if_pos (by rw [hylen]; omega)]
      conv_lhs => rw [hshape]
      conv_rhs => rw [hshape]
      rw [List.take_left' htake_len]
    · rw [if_neg hlong] at hshape
      by_cases hyn : sanitizeChat x = []
      · rw [hyn]
        rfl
      · rw [sanitizeChat_shape (sanitizeChat x) hyn,
          sanitizeStages_id_of _ h1 h2 (by rw [hshape]; exact hcolS)
            (by rw [hshape]; exact hhS) (by rw [hshape]; exact hlS),
          if_neg (by rw [hshape]; exact hlong)]

/-- C9 counterexample: one sanitisation pass of this input yields
`<think>b` (the removal of the inner `<think>xx</thinking>` splices
`<thi`+`nk>b` into a new opening tag), and a second pass erases it: the
claim `sanitize (sanitize x) = sanitize x` is false at this input. -/
theorem claim_C9_counterexample :
    sanitizeChat (sanitizeChat ("<thi<think>xx</thinking>nk>b".toList))
      ≠ sanitizeChat ("<thi<think>xx</thinking>nk>b".toList) := by decide

/-- C9 witness: the amended idempotence at a concrete tag-free input. -/
theorem claim_C9_witness :
    ciContains thinkOpen (sanitizeChat ("hello".toList)) = false ∧
    ciContains thinkingOpen (sanitizeChat ("hello".toList)) = false ∧
    sanitizeChat (sanitizeChat ("hello".toList)) = sanitizeChat ("hello".toList) :=
  ⟨by decide, by decide,
    claim_C9_amended ("hello".toList) (by decide) (by decide)⟩

end XUnity
